import Mathlib

/-!
# intrusive::list — a shallow embedding of `include/intrusive/list.hpp`

The header implements an intrusive circular doubly linked list.  A `listnode`
holds two raw pointers `prev` and `next`; a `list<T, N>` owns one sentinel
`listnode head` and manipulates the `listnode` members `T::*N` of objects it
does not own.

Memory is modelled as a total map from addresses to `listnode` records and
every member function becomes a state transformer that performs the same
pointer writes in the same order as the C++ statement sequence.
-/

namespace intrusive

/-- Address of a `listnode`.  A `listnode` lives either inside a `list<T, N>`
(its private member `head`) or inside an object of type `T` as the member
selected by the pointer-to-member `N`.  `role` is the pointer-to-member `N`. -/
inductive Ptr where
  | head (role : Nat) (id : Nat)
  | field (role : Nat) (obj : Nat)
  deriving DecidableEq

/-- The pointer-to-member an address belongs to. -/
def Ptr.role : Ptr → Nat
  | .head r _ => r
  | .field r _ => r

/-- The two data members of `class listnode`. -/
structure listnode where
  prev : Ptr
  next : Ptr
  deriving DecidableEq

/-- Memory: the `listnode` stored at every address. -/
def Heap : Type := Ptr → listnode

/-- The assignment `p->next = v`. -/
def Heap.set_next (s : Heap) (p v : Ptr) : Heap :=
  fun q => if q = p then { prev := (s q).prev, next := v } else s q

/-- The assignment `p->prev = v`. -/
def Heap.set_prev (s : Heap) (p v : Ptr) : Heap :=
  fun q => if q = p then { prev := v, next := (s q).next } else s q

/-- Memory in which every `listnode` has just been constructed:
`listnode() : prev(this), next(this) {}`. -/
def Heap.fresh : Heap := fun q => { prev := q, next := q }

/-- `listnode::erase_partial`: `prev->next = next; next->prev = prev;`. -/
def listnode.erase_partial (this : Ptr) (s : Heap) : Heap :=
  let s1 := s.set_next (s this).prev (s this).next
  s1.set_prev (s1 this).next (s1 this).prev

/-- `listnode::~listnode`: `erase_partial();`.  The fields of the destroyed
node itself are left as they were; the node no longer exists afterwards. -/
def listnode.destructor (this : Ptr) (s : Heap) : Heap :=
  listnode.erase_partial this s

/-- `listnode::erase`: `erase_partial(); prev = this; next = this;`. -/
def listnode.erase (this : Ptr) (s : Heap) : Heap :=
  let s1 := listnode.erase_partial this s
  let s2 := s1.set_prev this this
  s2.set_next this this

/-- `list<T, N>::iterator`: a cursor holding one `listnode *node`. -/
structure iterator where
  node : Ptr
  deriving DecidableEq

/-- The public constructor `iterator(T &obj) : node(&(obj.*N))`. -/
def iterator.of_obj (N : Nat) (obj : Nat) : iterator := ⟨Ptr.field N obj⟩

/-- `iterator::operator++`: `node = node->next`. -/
def iterator.inc (it : iterator) (s : Heap) : iterator := ⟨(s it.node).next⟩

/-- `iterator::operator--`: `node = node->prev`. -/
def iterator.dec (it : iterator) (s : Heap) : iterator := ⟨(s it.node).prev⟩

/-- A `list<T, N>` object: the pointer-to-member `N` (`role`) and the identity
of the list, which fixes the address of its sentinel `head`. -/
structure list where
  role : Nat
  id : Nat
  deriving DecidableEq

namespace list

/-- Address of the private member `listnode head`. -/
def head (l : list) : Ptr := Ptr.head l.role l.id

/-- `list::to_object`: subtracts the offset of member `N` from the node
address.  The result is an object only when the address really is member `N`
of an object; otherwise the C++ computation has no meaning. -/
def to_object (N : Nat) : Ptr → Option Nat
  | .field r o => if r = N then some o else none
  | .head _ _ => none

/-- `list::empty`: `head.next == &head`. -/
def empty (l : list) (s : Heap) : Bool := decide ((s l.head).next = l.head)

/-- The `for` loop of `list::size`, bounded by `fuel` iterations of the loop
test: `for (node = ...; node != &head; node = node->next) ++n;`. -/
def size_loop (s : Heap) (hd : Ptr) : Nat → Ptr → Nat → Option Nat
  | 0, _, _ => none
  | fuel + 1, node, n =>
    if node = hd then some n else size_loop s hd fuel (s node).next (n + 1)

/-- `list::size`; `none` when the loop has not left after `fuel` tests. -/
def size (l : list) (s : Heap) (fuel : Nat) : Option Nat :=
  size_loop s l.head fuel (s l.head).next 0

/-- `list::begin`: `iterator(head.next)`. -/
def begin (l : list) (s : Heap) : iterator := ⟨(s l.head).next⟩

/-- `list::end`: `iterator(&head)`. -/
def end_ (l : list) : iterator := ⟨l.head⟩

/-- The nodes visited by `for (i = begin(); i != end(); ++i)`, bounded by
`fuel` loop tests. -/
def walk (s : Heap) (hd : Ptr) : Nat → Ptr → Option (List Ptr)
  | 0, _ => none
  | fuel + 1, node =>
    if node = hd then some [] else (walk s hd fuel (s node).next).map (node :: ·)

/-- The sequence of nodes an iteration from `begin()` to `end()` visits. -/
def elements (l : list) (s : Heap) (fuel : Nat) : Option (List Ptr) :=
  walk s l.head fuel (s l.head).next

/-- The nodes visited by walking `prev` from the sentinel back to the
sentinel (`--i` starting at `end()`), bounded by `fuel` loop tests. -/
def walk_back (s : Heap) (hd : Ptr) : Nat → Ptr → Option (List Ptr)
  | 0, _ => none
  | fuel + 1, node =>
    if node = hd then some [] else (walk_back s hd fuel (s node).prev).map (node :: ·)

/-- `list::insert(iterator pos, T &obj)` (a static member). -/
def insert (N : Nat) (pos : iterator) (obj : Nat) (s : Heap) : Heap × iterator :=
  let node := Ptr.field N obj
  let s1 := listnode.erase_partial node s
  let s2 := s1.set_prev node (s1 pos.node).prev
  let s3 := s2.set_next node pos.node
  let s4 := s3.set_next (s3 pos.node).prev node
  let s5 := s4.set_prev pos.node node
  (s5, ⟨node⟩)

/-- `list::insert(iterator pos, iterator begin, iterator end)` (a static
member), the splice of the run `[begin, end)` in front of `pos`. -/
def insert_range (pos b e : iterator) (s : Heap) : Heap × iterator :=
  if b = e then (s, pos) else
    let last := e.dec s
    let s1 := s.set_next (s b.node).prev e.node
    let s2 := s1.set_prev e.node (s1 b.node).prev
    let s3 := s2.set_prev b.node (s2 pos.node).prev
    let s4 := s3.set_next last.node pos.node
    let s5 := s4.set_next (s4 pos.node).prev b.node
    let s6 := s5.set_prev pos.node last.node
    (s6, b)

/-- `list::erase(iterator pos)` (a static member):
`iterator next = ++pos; pos.node->erase(); return next;`.  The pre-increment
advances `pos` itself, and `next` is a copy of the advanced `pos`. -/
def erase (pos : iterator) (s : Heap) : Heap × iterator :=
  let pos1 := pos.inc s
  let next := pos1
  (listnode.erase pos1.node s, next)

/-- `list::push_back`: `insert(end(), obj)`. -/
def push_back (l : list) (obj : Nat) (s : Heap) : Heap :=
  (insert l.role l.end_ obj s).1

/-- `list::pop_back`: `head.prev->erase()`. -/
def pop_back (l : list) (s : Heap) : Heap :=
  listnode.erase (s l.head).prev s

/-- `list::push_front`: `insert(begin(), obj)`. -/
def push_front (l : list) (obj : Nat) (s : Heap) : Heap :=
  (insert l.role (l.begin s) obj s).1

/-- `list::pop_front`: `head.next->erase()`. -/
def pop_front (l : list) (s : Heap) : Heap :=
  listnode.erase (s l.head).next s

/-- `list::clear`: `head.erase()`. -/
def clear (l : list) (s : Heap) : Heap :=
  listnode.erase l.head s

/-- `list::front`: `*to_object(head.next)`. -/
def front (l : list) (s : Heap) : Option Nat := to_object l.role (s l.head).next

/-- `list::back`: `*to_object(head.prev)`. -/
def back (l : list) (s : Heap) : Option Nat := to_object l.role (s l.head).prev

end list

/-! ## Specification vocabulary -/

/-- Ring consistency of one link field `p`: `p.prev.next == p` and
`p.next.prev == p`. -/
def ConsistentAt (s : Heap) (p : Ptr) : Prop :=
  (s (s p).prev).next = p ∧ (s (s p).next).prev = p

instance ConsistentAt.decidable (s : Heap) (p : Ptr) : Decidable (ConsistentAt s p) :=
  inferInstanceAs (Decidable ((s (s p).prev).next = p ∧ (s (s p).next).prev = p))

/-- Ring consistency of the whole state. -/
def Consistent (s : Heap) : Prop := ∀ p, ConsistentAt s p

/-- The node `a` is directly followed by `b`: `a.next == b` and `b.prev == a`. -/
def Linked (s : Heap) (a b : Ptr) : Prop := (s a).next = b ∧ (s b).prev = a

instance Linked.decidable (s : Heap) (a b : Ptr) : Decidable (Linked s a b) :=
  inferInstanceAs (Decidable ((s a).next = b ∧ (s b).prev = a))

/-- The link field `p` is self-referential (not a member of any list). -/
def SelfRef (s : Heap) (p : Ptr) : Prop := (s p).prev = p ∧ (s p).next = p

instance SelfRef.decidable (s : Heap) (p : Ptr) : Decidable (SelfRef s p) :=
  inferInstanceAs (Decidable ((s p).prev = p ∧ (s p).next = p))

/-- The list `l` is well formed with contents `xs`: following `next` from the
sentinel visits exactly `xs` in order and returns to the sentinel, `prev`
mirrors every one of these links, no node occurs twice, and every member is
the link field `N` of an object (`to_object` is defined on it). -/
def list.WellFormed (l : list) (s : Heap) (xs : List Ptr) : Prop :=
  (l.head :: xs).Nodup ∧ List.Chain (Linked s) l.head (xs ++ [l.head]) ∧
    ∀ x ∈ xs, (list.to_object l.role x).isSome = true

/-- Deciding a path link by link. -/
def Linked.decidableChain (s : Heap) :
    (a : Ptr) → (l : List Ptr) → Decidable (List.Chain (Linked s) a l)
  | _, [] => isTrue List.Chain.nil
  | a, x :: l =>
    haveI := Linked.decidableChain s x l
    decidable_of_iff (Linked s a x ∧ List.Chain (Linked s) x l) List.chain_cons.symm

instance list.WellFormed.decidable (l : list) (s : Heap) (xs : List Ptr) :
    Decidable (l.WellFormed s xs) :=
  haveI := Linked.decidableChain s l.head (xs ++ [l.head])
  inferInstanceAs (Decidable ((l.head :: xs).Nodup ∧ List.Chain (Linked s) l.head (xs ++ [l.head]) ∧
    ∀ x ∈ xs, (list.to_object l.role x).isSome = true))

/-- The sequence `xs` with the run `run` placed directly in front of the first
occurrence of `pos`, or at the end when `pos` does not occur (the position
`end()`). -/
def placeBefore (pos : Ptr) (run : List Ptr) : List Ptr → List Ptr
  | [] => run
  | x :: xs => if x = pos then run ++ x :: xs else x :: placeBefore pos run xs

/-- Every link a node of role `r` holds points to a node of role `r`:
`list<T, N>` only ever stores addresses of members `N` and of its own
sentinels in such nodes. -/
def RoleClosed (s : Heap) : Prop :=
  ∀ p, ((s p).next).role = p.role ∧ ((s p).prev).role = p.role

/-- The last node of the path that starts at `a` and continues through `l`. -/
def lastFrom : Ptr → List Ptr → Ptr
  | a, [] => a
  | _, x :: l => lastFrom x l

/-- Proof device: the state in which `a` and `e` have been linked to each
other (`a->next = e; e->prev = a`), the two writes that take a run out of its
ring. -/
def Heap.bridge (s : Heap) (a e : Ptr) : Heap := (s.set_next a e).set_prev e a

/-- Proof device: the four writes that link the run from `b` to `last` in
front of `pos`, shared by both overloads of `list::insert`. -/
def Heap.link_before (s : Heap) (pos b last : Ptr) : Heap :=
  let s3 := s.set_prev b (s pos).prev
  let s4 := s3.set_next last pos
  let s5 := s4.set_next (s4 pos).prev b
  s5.set_prev pos last

/-- The run `b :: t` floats in `s`: it is an internally linked path without
repetition, no node outside it points into it, and every node outside it is
ring consistent. -/
structure Floating (s : Heap) (b : Ptr) (t : List Ptr) : Prop where
  nodup : (b :: t).Nodup
  chain : List.Chain (Linked s) b t
  detached : ∀ m, m ∉ b :: t → (s m).next ∉ b :: t ∧ (s m).prev ∉ b :: t
  consistent : ∀ m, m ∉ b :: t → ConsistentAt s m

/-- The state `s'` is role closed and agrees with `s` on every link field
whose role is not `A`. -/
def RoleFrame (A : Nat) (s s' : Heap) : Prop :=
  RoleClosed s' ∧ ∀ q : Ptr, q.role ≠ A → s' q = s q

/-- The `m` nodes met by starting at `node` and following `next`. -/
def visited (s : Heap) : Ptr → Nat → List Ptr
  | _, 0 => []
  | node, m + 1 => node :: visited s (s node).next m

/-- The run `b :: t` can be linked in front of `pos` by looking at the ring
of `pos` only: the run is an internally linked path without repetition, `pos`
is outside it, and the predecessor of `pos` is outside it and points back at
`pos`. -/
structure Dock (s : Heap) (b : Ptr) (t : List Ptr) (pos : Ptr) : Prop where
  nodup : (b :: t).Nodup
  chain : List.Chain (Linked s) b t
  pos_out : pos ∉ b :: t
  pred_out : (s pos).prev ∉ b :: t
  pred_link : (s (s pos).prev).next = pos

/-! ## Concrete scenarios used as test inputs -/

/-- The list `listA` of the test program (role 0). -/
def listA : list := ⟨0, 0⟩
/-- The list `listB` of the test program (role 1). -/
def listB : list := ⟨1, 0⟩
/-- The list `listA2` of the test program (role 0). -/
def listA2 : list := ⟨0, 1⟩

/-- The member `nodeA` of the test program's `element` number `o`. -/
def nodeA (o : Nat) : Ptr := Ptr.field 0 o
/-- The member `nodeB` of the test program's `element` number `o`. -/
def nodeB (o : Nat) : Ptr := Ptr.field 1 o

/-- State after `listA.push_back(one); listA.push_back(two);
listB.push_back(one); listB.push_back(two);`. -/
def scenario12 : Heap :=
  listB.push_back 2 (listB.push_back 1 (listA.push_back 2 (listA.push_back 1 Heap.fresh)))

/-- State of the test program after its first inner block has been left:
`listA.push_back(four); listA2.push_back(two); listA2.push_back(three);`, then
the destructors of `four` (members in reverse order, `nodeB` then `nodeA`) and
of `listA2` (its sentinel) have run.  The destroyed nodes keep stale links. -/
def scenarioScope : Heap :=
  listnode.destructor listA2.head ( listnode.destructor (nodeA 4) ( listnode.destructor (nodeB 4)
    (listA2.push_back 3 (listA2.push_back 2 (listA.push_back 4 scenario12)))))

/-- A list of role `nodeA` constructed after the inner block (`list1`). -/
def list1 : list := ⟨0, 2⟩
/-- A list of role `nodeB` constructed after the inner block. -/
def listB2 : list := ⟨1, 2⟩

/-! ## Reading memory after a write -/

@[simp] theorem set_next_next (s : Heap) (p v q : Ptr) :
    ((s.set_next p v) q).next = if q = p then v else (s q).next := by
  unfold Heap.set_next; split <;> rfl

@[simp] theorem set_next_prev (s : Heap) (p v q : Ptr) :
    ((s.set_next p v) q).prev = (s q).prev := by
  unfold Heap.set_next; split <;> rfl

@[simp] theorem set_prev_prev (s : Heap) (p v q : Ptr) :
    ((s.set_prev p v) q).prev = if q = p then v else (s q).prev := by
  unfold Heap.set_prev; split <;> rfl

@[simp] theorem set_prev_next (s : Heap) (p v q : Ptr) :
    ((s.set_prev p v) q).next = (s q).next := by
  unfold Heap.set_prev; split <;> rfl

theorem listnode_ext {a b : listnode} (hp : a.prev = b.prev) (hn : a.next = b.next) : a = b := by
  cases a; cases b; simp_all

theorem heap_ext {s t : Heap} (h : ∀ q, (s q).prev = (t q).prev ∧ (s q).next = (t q).next) :
    s = t :=
  funext fun q => listnode_ext (h q).1 (h q).2

@[simp] theorem bridge_next (s : Heap) (a e q : Ptr) :
    ((s.bridge a e) q).next = if q = a then e else (s q).next := by
  simp [Heap.bridge]

@[simp] theorem bridge_prev (s : Heap) (a e q : Ptr) :
    ((s.bridge a e) q).prev = if q = e then a else (s q).prev := by
  simp [Heap.bridge]

theorem erase_partial_eq_bridge (n : Ptr) (s : Heap) :
    listnode.erase_partial n s = s.bridge (s n).prev (s n).next := by
  apply heap_ext
  intro q
  have h : (if n = (s n).prev then (s n).next else (s n).next) = (s n).next := by split <;> rfl
  simp [listnode.erase_partial, h]

theorem insert_eq_link (N : Nat) (pos : iterator) (obj : Nat) (s : Heap) :
    (list.insert N pos obj s).1 =
      (listnode.erase_partial (Ptr.field N obj) s).link_before pos.node
        (Ptr.field N obj) (Ptr.field N obj) := rfl

theorem insert_range_eq_link (pos b e : iterator) (s : Heap) (h : b ≠ e) :
    (list.insert_range pos b e s).1 =
      (s.bridge (s b.node).prev e.node).link_before pos.node b.node (s e.node).prev := by
  simp [list.insert_range, h, Heap.link_before, Heap.bridge, iterator.dec]

theorem link_before_next (s : Heap) (pos b last q : Ptr) (h : pos ≠ b) :
    ((s.link_before pos b last) q).next =
      if q = (s pos).prev then b else if q = last then pos else (s q).next := by
  simp [Heap.link_before, h]

theorem link_before_prev (s : Heap) (pos b last q : Ptr) :
    ((s.link_before pos b last) q).prev =
      if q = pos then last else if q = b then (s pos).prev else (s q).prev := by
  simp [Heap.link_before]

/-! ## Paths -/

theorem lastFrom_mem (a : Ptr) (l : List Ptr) : lastFrom a l ∈ a :: l := by
  induction l generalizing a with
  | nil => simp [lastFrom]
  | cons x l ih =>
    have := ih x
    simp only [lastFrom]
    exact List.mem_cons_of_mem _ this

theorem lastFrom_append_singleton (a z : Ptr) (l : List Ptr) : lastFrom a (l ++ [z]) = z := by
  induction l generalizing a with
  | nil => simp [lastFrom]
  | cons x l ih => simpa [lastFrom] using ih x

theorem lastFrom_append_cons (a z : Ptr) (l r : List Ptr) :
    lastFrom a (l ++ z :: r) = lastFrom z r := by
  induction l generalizing a with
  | nil => simp [lastFrom]
  | cons x l ih => simpa [lastFrom] using ih x

theorem chain_append_iff {R : Ptr → Ptr → Prop} (a : Ptr) (l r : List Ptr) :
    List.Chain R a (l ++ r) ↔ List.Chain R a l ∧ List.Chain R (lastFrom a l) r := by
  induction l generalizing a with
  | nil => simp [lastFrom]
  | cons x l ih => simp [lastFrom, ih x, and_assoc]

/-- Transfer of a path between two link relations, looking only at the links
the path really uses. -/
theorem chain_transfer {R S : Ptr → Ptr → Prop} (a : Ptr) (l : List Ptr)
    (hc : List.Chain R a l)
    (h : ∀ x y, x ∈ a :: l → y ∈ l → R x y → S x y) : List.Chain S a l := by
  induction l generalizing a with
  | nil => exact List.Chain.nil
  | cons x l ih =>
    rw [List.chain_cons] at hc ⊢
    refine ⟨h a x (by simp) (by simp) hc.1, ih x hc.2 ?_⟩
    intro u v hu hv huv
    exact h u v (List.mem_cons_of_mem _ hu) (List.mem_cons_of_mem _ hv) huv

/-- Transfer of a path without repetition: the source of a used link is never
the last node and the target is never the first. -/
theorem chain_transfer_nodup {R S : Ptr → Ptr → Prop} (a : Ptr) (l : List Ptr)
    (hn : (a :: l).Nodup) (hc : List.Chain R a l)
    (h : ∀ x y, x ∈ a :: l → y ∈ l → x ≠ lastFrom a l → y ≠ a → R x y → S x y) :
    List.Chain S a l := by
  induction l generalizing a with
  | nil => exact List.Chain.nil
  | cons x l ih =>
    rw [List.chain_cons] at hc ⊢
    have hax : a ∉ x :: l := (List.nodup_cons.1 hn).1
    have hn2 : (x :: l).Nodup := (List.nodup_cons.1 hn).2
    refine ⟨h a x (by simp) (by simp) ?_ ?_ hc.1, ih x hn2 hc.2 ?_⟩
    · intro hl
      apply hax
      rw [hl]
      exact lastFrom_mem x l
    · intro hxa
      apply hax
      simp [hxa]
    · intro u v hu hv hul hvx huv
      refine h u v (List.mem_cons_of_mem _ hu) (List.mem_cons_of_mem _ hv) hul ?_ huv
      intro hva
      apply hax
      rw [← hva]
      exact List.mem_cons_of_mem _ hv

theorem chain_pred {R : Ptr → Ptr → Prop} (a : Ptr) (l : List Ptr) (hc : List.Chain R a l)
    (y : Ptr) (hy : y ∈ l) : ∃ x, x ∈ a :: l ∧ R x y := by
  induction l generalizing a with
  | nil => simp at hy
  | cons z l ih =>
    rw [List.chain_cons] at hc
    rcases List.mem_cons.1 hy with h | h
    · exact ⟨a, by simp, h ▸ hc.1⟩
    · obtain ⟨x, hx, hr⟩ := ih z hc.2 h
      exact ⟨x, List.mem_cons_of_mem _ hx, hr⟩

theorem chain_succ {R : Ptr → Ptr → Prop} (a : Ptr) (l : List Ptr) (hc : List.Chain R a l)
    (x : Ptr) (hx : x ∈ a :: l) (hl : x ≠ lastFrom a l) : ∃ y, y ∈ l ∧ R x y := by
  induction l generalizing a with
  | nil =>
    simp at hx
    exact absurd hx hl
  | cons z l ih =>
    rw [List.chain_cons] at hc
    rcases List.mem_cons.1 hx with h | h
    · exact ⟨z, by simp, h ▸ hc.1⟩
    · obtain ⟨y, hy, hr⟩ := ih z hc.2 h hl
      exact ⟨y, List.mem_cons_of_mem _ hy, hr⟩

theorem consistent_of_linked (s : Heap)
    (h : ∀ m, (∃ x, Linked s x m) ∧ ∃ y, Linked s m y) : Consistent s := by
  intro m
  obtain ⟨⟨x, hx⟩, ⟨y, hy⟩⟩ := h m
  refine ⟨?_, ?_⟩
  · rw [hx.2]; exact hx.1
  · rw [hy.1]; exact hy.2

theorem linked_prev (s : Heap) (m : Ptr) (h : ConsistentAt s m) : Linked s (s m).prev m :=
  ⟨h.1, rfl⟩

theorem linked_next (s : Heap) (m : Ptr) (h : ConsistentAt s m) : Linked s m (s m).next :=
  ⟨rfl, h.2⟩

/-! ## Linking a floating run in front of a position -/

section link

variable {s : Heap} {b pos : Ptr} {t : List Ptr}

theorem link_pos_ne (hpos : pos ∉ b :: t) : pos ≠ b := by
  intro h; apply hpos; simp [h]

theorem link_linked_first (hpos : pos ∉ b :: t) :
    Linked (s.link_before pos b (lastFrom b t)) (s pos).prev b := by
  have hne := link_pos_ne hpos
  refine ⟨?_, ?_⟩
  · rw [link_before_next _ _ _ _ _ hne]; simp
  · rw [link_before_prev]; simp [Ne.symm hne]

theorem link_linked_last (hf : Floating s b t) (hpos : pos ∉ b :: t) :
    Linked (s.link_before pos b (lastFrom b t)) (lastFrom b t) pos := by
  have hne := link_pos_ne hpos
  have hq : lastFrom b t ≠ (s pos).prev := by
    intro h
    exact (hf.detached pos hpos).2 (h ▸ lastFrom_mem b t)
  refine ⟨?_, ?_⟩
  · rw [link_before_next _ _ _ _ _ hne]; simp [hq]
  · rw [link_before_prev]; simp

theorem link_frame (hf : Floating s b t) (hpos : pos ∉ b :: t) (a c : Ptr)
    (ha : a ∉ b :: t) (hc : c ∉ b :: t) (hcp : c ≠ pos) (h : Linked s a c) :
    Linked (s.link_before pos b (lastFrom b t)) a c := by
  have hne := link_pos_ne hpos
  have haq : a ≠ (s pos).prev := by
    intro e
    apply hcp
    rw [← h.1, e]
    exact (hf.consistent pos hpos).1
  have hal : a ≠ lastFrom b t := fun e => ha (e ▸ lastFrom_mem b t)
  have hcb : c ≠ b := fun e => hc (by simp [e])
  refine ⟨?_, ?_⟩
  · rw [link_before_next _ _ _ _ _ hne]; simp [haq, hal, h.1]
  · rw [link_before_prev]; simp [hcp, hcb, h.2]

theorem link_inner (hf : Floating s b t) (hpos : pos ∉ b :: t) :
    List.Chain (Linked (s.link_before pos b (lastFrom b t))) b t := by
  have hne := link_pos_ne hpos
  refine chain_transfer_nodup b t hf.nodup hf.chain ?_
  intro x y hx hy hxl hyb h
  have hxq : x ≠ (s pos).prev := fun e => (hf.detached pos hpos).2 (e ▸ hx)
  have hyp : y ≠ pos := fun e => hpos (e ▸ List.mem_cons_of_mem _ hy)
  refine ⟨?_, ?_⟩
  · rw [link_before_next _ _ _ _ _ hne]; simp [hxq, hxl, h.1]
  · rw [link_before_prev]; simp [hyp, hyb, h.2]

theorem link_consistent (hf : Floating s b t) (hpos : pos ∉ b :: t) :
    Consistent (s.link_before pos b (lastFrom b t)) := by
  apply consistent_of_linked
  intro m
  by_cases hm : m ∈ b :: t
  · constructor
    · rcases List.mem_cons.1 hm with h | h
      · exact ⟨(s pos).prev, by rw [h]; exact link_linked_first hpos⟩
      · obtain ⟨x, _, hx⟩ := chain_pred b t (link_inner hf hpos) m h
        exact ⟨x, hx⟩
    · by_cases hl : m = lastFrom b t
      · exact ⟨pos, by rw [hl]; exact link_linked_last hf hpos⟩
      · obtain ⟨y, _, hy⟩ := chain_succ b t (link_inner hf hpos) m hm hl
        exact ⟨y, hy⟩
  · have hcm := hf.consistent m hm
    constructor
    · by_cases hp : m = pos
      · exact ⟨lastFrom b t, by rw [hp]; exact link_linked_last hf hpos⟩
      · exact ⟨_, link_frame hf hpos _ _ (hf.detached m hm).2 hm hp (linked_prev s m hcm)⟩
    · by_cases hp : (s m).next = pos
      · have : m = (s pos).prev := by rw [← hp]; exact hcm.2.symm
        exact ⟨_, this ▸ link_linked_first hpos⟩
      · exact ⟨_, link_frame hf hpos _ _ hm (hf.detached m hm).1 hp (linked_next s m hcm)⟩

/-- A path that avoids the run and the position is not changed by linking. -/
theorem link_chain_frame (hf : Floating s b t) (hpos : pos ∉ b :: t) (a : Ptr) (l : List Ptr)
    (ha : a ∉ b :: t) (hl : ∀ x ∈ l, x ∉ b :: t ∧ x ≠ pos) (hc : List.Chain (Linked s) a l) :
    List.Chain (Linked (s.link_before pos b (lastFrom b t))) a l := by
  refine chain_transfer a l hc ?_
  intro x y hx hy h
  refine link_frame hf hpos x y ?_ (hl y hy).1 (hl y hy).2 h
  rcases List.mem_cons.1 hx with e | e
  · exact e ▸ ha
  · exact (hl x e).1

/-- A path through the position gets the run inserted in front of it. -/
theorem link_chain_place (hf : Floating s b t) (hpos : pos ∉ b :: t) (a h : Ptr) (l : List Ptr)
    (ha : a ∉ b :: t) (hl : ∀ x ∈ l ++ [h], x ∉ b :: t) (hn : (l ++ [h]).Nodup)
    (hp : pos ∈ l ++ [h]) (hc : List.Chain (Linked s) a (l ++ [h])) :
    List.Chain (Linked (s.link_before pos b (lastFrom b t))) a
      (placeBefore pos (b :: t) l ++ [h]) := by
  induction l generalizing a with
  | nil =>
    have hph : pos = h := by simpa using hp
    subst hph
    have hc1 : Linked s a pos := by simpa using hc
    have haq : a = (s pos).prev := hc1.2.symm
    simp only [placeBefore, List.cons_append, List.chain_cons]
    refine ⟨haq ▸ link_linked_first hpos, ?_⟩
    rw [chain_append_iff]
    exact ⟨link_inner hf hpos, by simpa using link_linked_last hf hpos⟩
  | cons x l ih =>
    simp only [List.cons_append, List.chain_cons] at hc
    have hn2 : (l ++ [h]).Nodup := (List.nodup_cons.1 hn).2
    have hxn : x ∉ l ++ [h] := (List.nodup_cons.1 hn).1
    have hl2 : ∀ y ∈ l ++ [h], y ∉ b :: t := fun y hy => hl y (List.mem_cons_of_mem _ hy)
    have hxr : x ∉ b :: t := hl x (by simp)
    by_cases hx : x = pos
    · subst hx
      have haq : a = (s x).prev := hc.1.2.symm
      simp only [placeBefore, if_true, List.cons_append, List.chain_cons]
      refine ⟨haq ▸ link_linked_first hpos, ?_⟩
      rw [List.append_assoc, chain_append_iff]
      refine ⟨link_inner hf hpos, ?_⟩
      simp only [List.cons_append, List.chain_cons]
      refine ⟨link_linked_last hf hpos, ?_⟩
      refine link_chain_frame hf hpos x (l ++ [h]) hxr ?_ hc.2
      intro y hy
      exact ⟨hl2 y hy, fun e => hxn (e ▸ hy)⟩
    · have hp2 : pos ∈ l ++ [h] := by
        rcases List.mem_cons.1 hp with e | e
        · exact absurd e.symm hx
        · exact e
      simp only [placeBefore, if_neg hx, List.cons_append, List.chain_cons]
      exact ⟨link_frame hf hpos a x ha hxr hx hc.1, ih x hxr hl2 hn2 hp2 hc.2⟩

end link

/-! ## Taking a run out of its ring -/

section bridge

variable {s : Heap} {b e : Ptr} {t : List Ptr}

theorem bridge_linked (s : Heap) (a e : Ptr) : Linked (s.bridge a e) a e := by
  simp [Linked]

theorem bridge_frame (hcs : Consistent s) (hle : Linked s (lastFrom b t) e) (a c : Ptr)
    (ha : a ∉ b :: t) (hc : c ∉ b :: t) (h : Linked s a c) :
    Linked (s.bridge (s b).prev e) a c := by
  have haA : a ≠ (s b).prev := by
    intro ea
    apply hc
    rw [← h.1, ea, (hcs b).1]
    simp
  have hce : c ≠ e := by
    intro ec
    apply ha
    rw [← h.2, ec, hle.2]
    exact lastFrom_mem b t
  simp [Linked, haA, hce, h.1, h.2]

theorem bridge_floating (hcs : Consistent s) (hnd : (b :: t).Nodup)
    (hch : List.Chain (Linked s) b t) (hA : (s b).prev ∉ b :: t) (he : e ∉ b :: t)
    (hle : Linked s (lastFrom b t) e) : Floating (s.bridge (s b).prev e) b t := by
  refine ⟨hnd, ?_, ?_, ?_⟩
  · refine chain_transfer b t hch ?_
    intro x y hx hy h
    have hxA : x ≠ (s b).prev := fun ex => hA (ex ▸ hx)
    have hye : y ≠ e := fun ey => he (ey ▸ List.mem_cons_of_mem _ hy)
    simp [Linked, hxA, hye, h.1, h.2]
  · intro m hm
    constructor
    · rw [bridge_next]
      split
      · exact he
      · rename_i hmA
        intro hin
        rcases List.mem_cons.1 hin with hb | ht
        · apply hmA
          rw [← hb, (hcs m).2]
        · obtain ⟨x, hx, hl⟩ := chain_pred b t hch _ ht
          apply hm
          rw [← (hcs m).2, hl.2]
          exact hx
    · rw [bridge_prev]
      split
      · exact hA
      · rename_i hme
        intro hin
        by_cases hl : (s m).prev = lastFrom b t
        · apply hme
          rw [← (hcs m).1, hl, hle.1]
        · obtain ⟨y, hy, hl⟩ := chain_succ b t hch _ hin hl
          apply hm
          rw [← (hcs m).1, hl.1]
          exact List.mem_cons_of_mem _ hy
  · intro m hm
    constructor
    · rw [bridge_prev]
      split
      · rename_i hme
        simp [hme]
      · rw [bridge_next]
        split
        · rename_i hq
          exfalso
          apply hm
          rw [← (hcs m).1, hq, (hcs b).1]
          simp
        · exact (hcs m).1
    · rw [bridge_next]
      split
      · rename_i hmA
        simp [hmA]
      · rw [bridge_prev]
        split
        · rename_i hq
          exfalso
          apply hm
          rw [← (hcs m).2, hq, hle.2]
          exact lastFrom_mem b t
        · exact (hcs m).2

/-- The ring of a well-formed list after a run `b :: t` of its members has
been taken out: the run floats and the ring closes over the gap. -/
theorem bridge_ring (hcs : Consistent s) (h : Ptr) (l1 l2 r : List Ptr)
    (hn : (h :: (l1 ++ b :: t ++ l2)).Nodup)
    (hc : List.Chain (Linked s) h (l1 ++ b :: t ++ l2 ++ [h])) (he : l2 ++ [h] = e :: r) :
    Floating (s.bridge (s b).prev e) b t ∧
      List.Chain (Linked (s.bridge (s b).prev e)) h (l1 ++ l2 ++ [h]) ∧
      Linked s (lastFrom b t) e ∧ (s b).prev = lastFrom h l1 := by
  have hc' : List.Chain (Linked s) h (l1 ++ (b :: (t ++ (e :: r)))) := by
    have : l1 ++ b :: t ++ l2 ++ [h] = l1 ++ (b :: (t ++ (e :: r))) := by
      rw [← he]; simp
    rw [← this]; exact hc
  rw [chain_append_iff, List.chain_cons, chain_append_iff, List.chain_cons] at hc'
  obtain ⟨hc1, hAb, hct, hle, hcr⟩ := hc'
  have hnd : (b :: t).Nodup := by
    have h1 := (List.nodup_cons.1 hn).2
    rw [List.append_assoc] at h1
    exact (List.nodup_append.1 (List.nodup_append.1 h1).2.1).1
  have hdis : ∀ x, x ∈ h :: (l1 ++ l2) → x ∉ b :: t := by
    intro x hx hxr
    have hn' : (h :: (l1 ++ ((b :: t) ++ l2))).Nodup := by simpa using hn
    rw [List.nodup_cons, List.nodup_append] at hn'
    obtain ⟨hh, h1, h2, h3⟩ := hn'
    rw [List.nodup_append] at h2
    rcases List.mem_cons.1 hx with e1 | e1
    · apply hh
      rw [← e1]
      exact List.mem_append_right _ (List.mem_append_left _ hxr)
    · rcases List.mem_append.1 e1 with e2 | e2
      · exact h3 e2 (List.mem_append_left _ hxr)
      · exact h2.2.2 hxr e2
  have hA : (s b).prev ∉ b :: t := by
    rw [hAb.2]
    apply hdis
    rcases List.mem_cons.1 (lastFrom_mem h l1) with e1 | e1
    · rw [e1]; simp
    · exact List.mem_cons_of_mem _ (List.mem_append_left _ e1)
  have her : ∀ x ∈ e :: r, x ∉ b :: t := by
    intro x hx
    rw [← he] at hx
    apply hdis
    rcases List.mem_append.1 hx with e1 | e1
    · exact List.mem_cons_of_mem _ (List.mem_append_right _ e1)
    · simp at e1; simp [e1]
  have he' : e ∉ b :: t := her e (by simp)
  refine ⟨bridge_floating hcs hnd hct hA he' hle, ?_, hle, hAb.2⟩
  rw [List.append_assoc, he, chain_append_iff, List.chain_cons]
  refine ⟨?_, ?_, ?_⟩
  · refine chain_transfer h l1 hc1 ?_
    intro x y hx hy hxy
    refine bridge_frame hcs hle x y (hdis x ?_) (hdis y ?_) hxy
    · rcases List.mem_cons.1 hx with e1 | e1
      · simp [e1]
      · exact List.mem_cons_of_mem _ (List.mem_append_left _ e1)
    · exact List.mem_cons_of_mem _ (List.mem_append_left _ hy)
  · rw [← hAb.2]
    exact bridge_linked s _ e
  · refine chain_transfer e r hcr ?_
    intro x y hx hy hxy
    exact bridge_frame hcs hle x y (her x hx) (her y (List.mem_cons_of_mem _ hy)) hxy

end bridge

/-! ## Rings -/

theorem ring_next_mem {s : Heap} {h : Ptr} {xs : List Ptr}
    (hc : List.Chain (Linked s) h (xs ++ [h])) (x : Ptr) (hx : x ∈ h :: xs) :
    (s x).next ∈ h :: xs := by
  have key : (s x).next ∈ xs ++ [h] := by
    by_cases hxh : x = h
    · subst hxh
      cases xs with
      | nil => simp at hc; simp [hc.1]
      | cons y ys =>
        simp only [List.cons_append, List.chain_cons] at hc
        simp [hc.1.1]
    · have hx' : x ∈ h :: (xs ++ [h]) := by
        rcases List.mem_cons.1 hx with e | e
        · exact absurd e hxh
        · exact List.mem_cons_of_mem _ (List.mem_append_left _ e)
      have hl : x ≠ lastFrom h (xs ++ [h]) := by
        rw [lastFrom_append_singleton]; exact hxh
      obtain ⟨y, hy, hxy⟩ := chain_succ h _ hc x hx' hl
      rw [hxy.1]; exact hy
  rcases List.mem_append.1 key with e | e
  · exact List.mem_cons_of_mem _ e
  · simp at e; simp [e]

theorem ring_prev_mem {s : Heap} {h : Ptr} {xs : List Ptr}
    (hc : List.Chain (Linked s) h (xs ++ [h])) (x : Ptr) (hx : x ∈ h :: xs) :
    (s x).prev ∈ h :: xs := by
  have hx' : x ∈ xs ++ [h] := by
    rcases List.mem_cons.1 hx with e | e
    · simp [e]
    · exact List.mem_append_left _ e
  obtain ⟨y, hy, hyx⟩ := chain_pred h _ hc x hx'
  rw [hyx.2]
  rcases List.mem_cons.1 hy with e | e
  · simp [e]
  · rcases List.mem_append.1 e with e1 | e1
    · exact List.mem_cons_of_mem _ e1
    · simp at e1; simp [e1]

theorem chain_closed {s : Heap} (P : Ptr → Prop) (hP : ∀ x, P x → P (s x).next)
    (a : Ptr) (l : List Ptr) (hc : List.Chain (Linked s) a l) (ha : P a) : ∀ y ∈ l, P y := by
  induction l generalizing a with
  | nil => simp
  | cons x l ih =>
    rw [List.chain_cons] at hc
    have hx : P x := hc.1.1 ▸ hP a ha
    intro y hy
    rcases List.mem_cons.1 hy with e | e
    · exact e ▸ hx
    · exact ih x hc.2 hx y e

/-- A node of a ring reaches the sentinel of that ring along `next`, so any
set closed under `next` that contains the node contains the sentinel. -/
theorem ring_reaches_head {s : Heap} {h : Ptr} {xs : List Ptr}
    (hc : List.Chain (Linked s) h (xs ++ [h])) (P : Ptr → Prop)
    (hP : ∀ x, P x → P (s x).next) (z : Ptr) (hz : z ∈ h :: xs) (hPz : P z) : P h := by
  rcases List.mem_cons.1 hz with e | e
  · exact e ▸ hPz
  · obtain ⟨m1, m2, rfl⟩ := List.append_of_mem e
    rw [List.append_assoc, chain_append_iff, List.cons_append, List.chain_cons] at hc
    exact chain_closed P hP z (m2 ++ [h]) hc.2.2 hPz h (by simp)

theorem head_ne_field (l : list) (r o : Nat) : l.head ≠ Ptr.field r o := by
  simp [list.head]

theorem head_injective {l1 l2 : list} (h : l1.head = l2.head) : l1 = l2 := by
  cases l1; cases l2
  simp [list.head] at h
  simp [h]

/-- Two different well-formed lists share no node. -/
theorem wf_disjoint {s : Heap} {l1 l2 : list} {xs ys : List Ptr}
    (h1 : l1.WellFormed s xs) (h2 : l2.WellFormed s ys) (hne : l1 ≠ l2) :
    ∀ z, z ∈ l1.head :: xs → z ∉ l2.head :: ys := by
  intro z hz1 hz2
  have hmem : l2.head ∈ l1.head :: xs :=
    ring_reaches_head h2.2.1 (fun x => x ∈ l1.head :: xs)
      (fun x hx => ring_next_mem h1.2.1 x hx) z hz2 hz1
  rcases List.mem_cons.1 hmem with e | e
  · exact hne (head_injective e).symm
  · have := h1.2.2 _ e
    simp [list.head, list.to_object] at this

/-! ## Observing a well-formed list -/

theorem walk_of_chain (s : Heap) (h : Ptr) (l : List Ptr) (a : Ptr) (fuel : Nat)
    (hc : List.Chain (Linked s) a (l ++ [h])) (hh : h ∉ l) (hf : l.length < fuel) :
    list.walk s h fuel (s a).next = some l := by
  induction l generalizing a fuel with
  | nil =>
    cases fuel with
    | zero => simp at hf
    | succ f =>
      simp at hc
      simp [list.walk, hc.1]
  | cons x l ih =>
    cases fuel with
    | zero => simp at hf
    | succ f =>
      simp only [List.cons_append, List.chain_cons] at hc
      have hxh : x ≠ h := fun e => hh (by simp [e])
      have hh2 : h ∉ l := fun e => hh (List.mem_cons_of_mem _ e)
      have hf2 : l.length < f := by simpa using hf
      simp [list.walk, hc.1.1, hxh, ih x f hc.2 hh2 hf2]

theorem size_loop_of_chain (s : Heap) (h : Ptr) (l : List Ptr) (a : Ptr) (fuel n : Nat)
    (hc : List.Chain (Linked s) a (l ++ [h])) (hh : h ∉ l) (hf : l.length < fuel) :
    list.size_loop s h fuel (s a).next n = some (n + l.length) := by
  induction l generalizing a fuel n with
  | nil =>
    cases fuel with
    | zero => simp at hf
    | succ f =>
      simp at hc
      simp [list.size_loop, hc.1]
  | cons x l ih =>
    cases fuel with
    | zero => simp at hf
    | succ f =>
      simp only [List.cons_append, List.chain_cons] at hc
      have hxh : x ≠ h := fun e => hh (by simp [e])
      have hh2 : h ∉ l := fun e => hh (List.mem_cons_of_mem _ e)
      have hf2 : l.length < f := by simpa using hf
      simp [list.size_loop, hc.1.1, hxh, ih x f (n + 1) hc.2 hh2 hf2]
      omega

theorem wf_elements {s : Heap} {l : list} {xs : List Ptr} (hw : l.WellFormed s xs)
    (fuel : Nat) (hf : xs.length < fuel) : l.elements s fuel = some xs :=
  walk_of_chain s l.head xs l.head fuel hw.2.1 (List.nodup_cons.1 hw.1).1 hf

theorem wf_size {s : Heap} {l : list} {xs : List Ptr} (hw : l.WellFormed s xs)
    (fuel : Nat) (hf : xs.length < fuel) : l.size s fuel = some xs.length := by
  have := size_loop_of_chain s l.head xs l.head fuel 0 hw.2.1 (List.nodup_cons.1 hw.1).1 hf
  simpa [list.size] using this

/-! ## Placing a run -/

theorem placeBefore_perm (pos : Ptr) (run l : List Ptr) :
    (placeBefore pos run l).Perm (run ++ l) := by
  induction l with
  | nil => simp [placeBefore]
  | cons x l ih =>
    simp only [placeBefore]
    split
    · exact List.Perm.refl _
    · exact (List.Perm.cons x ih).trans (List.perm_middle.symm)

theorem placeBefore_not_mem (pos : Ptr) (run l : List Ptr) (h : pos ∉ l) :
    placeBefore pos run l = l ++ run := by
  induction l with
  | nil => simp [placeBefore]
  | cons x l ih =>
    have hx : x ≠ pos := fun e => h (by simp [e])
    have hl : pos ∉ l := fun e => h (List.mem_cons_of_mem _ e)
    simp [placeBefore, hx, ih hl]

theorem placeBefore_head (pos : Ptr) (run l : List Ptr) :
    placeBefore pos run (pos :: l) = run ++ pos :: l := by
  simp [placeBefore]

theorem placeBefore_erase (pos n : Ptr) (l : List Ptr) (h : n ∉ l) :
    (placeBefore pos [n] l).erase n = l := by
  induction l with
  | nil => simp [placeBefore]
  | cons x l ih =>
    have hx : x ≠ n := fun e => h (by simp [e])
    have hl : n ∉ l := fun e => h (List.mem_cons_of_mem _ e)
    simp only [placeBefore]
    split
    · simp
    · rw [List.erase_cons_tail (by simpa using hx), ih hl]

/-! ## Well-formed lists under the two stages -/

section wf

variable {s : Heap} {l : list}

theorem nodup_snoc_of_cons {h : Ptr} {xs : List Ptr} (hn : (h :: xs).Nodup) :
    (xs ++ [h]).Nodup :=
  (List.perm_append_singleton h xs).nodup_iff.2 hn

theorem wf_link {b pos : Ptr} {t ys : List Ptr} (hf : Floating s b t) (hpos : pos ∉ b :: t)
    (hw : l.WellFormed s ys) (hdis : ∀ x ∈ l.head :: ys, x ∉ b :: t)
    (hp : pos ∈ l.head :: ys) (hty : ∀ x ∈ b :: t, (list.to_object l.role x).isSome = true) :
    l.WellFormed (s.link_before pos b (lastFrom b t)) (placeBefore pos (b :: t) ys) := by
  obtain ⟨hn, hc, hobj⟩ := hw
  have hperm := placeBefore_perm pos (b :: t) ys
  refine ⟨?_, ?_, ?_⟩
  · rw [List.nodup_cons] at hn ⊢
    refine ⟨?_, hperm.nodup_iff.2 ?_⟩
    · intro hin
      rcases List.mem_append.1 (hperm.mem_iff.1 hin) with e | e
      · exact hdis l.head (by simp) e
      · exact hn.1 e
    · rw [List.nodup_append]
      refine ⟨hf.nodup, hn.2, ?_⟩
      intro x hx hy
      exact hdis x (List.mem_cons_of_mem _ hy) hx
  · refine link_chain_place hf hpos l.head l.head ys (hdis l.head (by simp)) ?_
      (nodup_snoc_of_cons hn) ?_ hc
    · intro x hx
      apply hdis
      rcases List.mem_append.1 hx with e | e
      · exact List.mem_cons_of_mem _ e
      · simp at e; simp [e]
    · rcases List.mem_cons.1 hp with e | e
      · simp [e]
      · exact List.mem_append_left _ e
  · intro x hx
    rcases List.mem_append.1 (hperm.mem_iff.1 hx) with e | e
    · exact hty x e
    · exact hobj x e

theorem wf_link_frame {b pos : Ptr} {t ys : List Ptr} (hf : Floating s b t)
    (hpos : pos ∉ b :: t) (hw : l.WellFormed s ys) (hdis : ∀ x ∈ l.head :: ys, x ∉ b :: t)
    (hp : pos ∉ l.head :: ys) :
    l.WellFormed (s.link_before pos b (lastFrom b t)) ys := by
  obtain ⟨hn, hc, hobj⟩ := hw
  refine ⟨hn, ?_, hobj⟩
  refine link_chain_frame hf hpos l.head (ys ++ [l.head]) (hdis l.head (by simp)) ?_ hc
  intro x hx
  have hx' : x ∈ l.head :: ys := by
    rcases List.mem_append.1 hx with e | e
    · exact List.mem_cons_of_mem _ e
    · simp at e; simp [e]
  exact ⟨hdis x hx', fun e => hp (e ▸ hx')⟩

theorem erase_partial_frame (hcs : Consistent s) (n a c : Ptr) (ha : a ≠ n) (hc : c ≠ n)
    (h : Linked s a c) : Linked ( listnode.erase_partial n s) a c := by
  rw [erase_partial_eq_bridge]
  exact bridge_frame (b := n) (t := []) hcs (linked_next s n (hcs n)) a c
    (by simpa using ha) (by simpa using hc) h

theorem erase_partial_floating (hcs : Consistent s) (n : Ptr) :
    Floating ( listnode.erase_partial n s) n [] := by
  rw [erase_partial_eq_bridge]
  by_cases hself : (s n).next = n
  · have hp : (s n).prev = n := by
      have := (hcs n).2
      rw [hself] at this
      exact this
    have hs : s.bridge (s n).prev (s n).next = s := by
      apply heap_ext
      intro q
      rw [hp, hself, bridge_prev, bridge_next]
      constructor <;> split <;> simp_all
    rw [hs]
    refine ⟨by simp, List.Chain.nil, ?_, fun m _ => hcs m⟩
    intro m hm
    have hm' : m ≠ n := by simpa using hm
    constructor
    · intro hin
      have e : (s m).next = n := by simpa using hin
      apply hm'
      rw [← (hcs m).2, e, hp]
    · intro hin
      have e : (s m).prev = n := by simpa using hin
      apply hm'
      rw [← (hcs m).1, e, hself]
  · have hp : (s n).prev ≠ n := by
      intro e
      apply hself
      have := (hcs n).1
      rw [e] at this
      exact this
    exact bridge_floating hcs (by simp) List.Chain.nil (by simpa using hp)
      (by simpa using hself) (linked_next s n (hcs n))

/-- The effect of `erase_partial` on any well-formed list whose sentinel is
not the erased node: the node disappears from the contents. -/
theorem wf_partial_erase {xs : List Ptr} (hcs : Consistent s) (hw : l.WellFormed s xs)
    (n : Ptr) (hn : n ≠ l.head) : l.WellFormed ( listnode.erase_partial n s) (xs.erase n) := by
  obtain ⟨hnd, hc, hobj⟩ := hw
  by_cases hmem : n ∈ xs
  · obtain ⟨l1, l2, rfl⟩ := List.append_of_mem hmem
    have hn1 : n ∉ l1 := by
      have h1 := (List.nodup_cons.1 hnd).2
      rw [List.nodup_append] at h1
      exact fun e => h1.2.2 e (by simp)
    have hn2 : n ∉ l2 := by
      have h1 := (List.nodup_cons.1 hnd).2
      rw [List.nodup_append] at h1
      exact (List.nodup_cons.1 h1.2.1).1
    have her : (l1 ++ n :: l2).erase n = l1 ++ l2 := by
      rw [List.erase_append_right _ hn1]; simp
    rw [her]
    obtain ⟨e, r, he⟩ : ∃ e r, l2 ++ [l.head] = e :: r := by
      cases l2 with
      | nil => exact ⟨_, _, rfl⟩
      | cons y ys => exact ⟨_, _, rfl⟩
    have hnd' : (l.head :: (l1 ++ n :: [] ++ l2)).Nodup := by simpa using hnd
    have hc' : List.Chain (Linked s) l.head (l1 ++ n :: [] ++ l2 ++ [l.head]) := by
      simpa using hc
    obtain ⟨_, hch, hle, _⟩ := bridge_ring hcs l.head l1 l2 r hnd' hc' he
    have hen : (s n).next = e := hle.1
    rw [erase_partial_eq_bridge, hen]
    refine ⟨?_, hch, ?_⟩
    · refine hnd.sublist ?_
      exact List.Sublist.cons₂ _ (List.Sublist.append_left (List.sublist_cons_self n l2) l1)
    · intro x hx
      apply hobj
      rcases List.mem_append.1 hx with e1 | e1
      · exact List.mem_append_left _ e1
      · exact List.mem_append_right _ (List.mem_cons_of_mem _ e1)
  · rw [List.erase_of_not_mem hmem]
    refine ⟨hnd, ?_, hobj⟩
    refine chain_transfer l.head _ hc ?_
    intro x y hx hy hxy
    have hne : ∀ z, z ∈ l.head :: (xs ++ [l.head]) → z ≠ n := by
      intro z hz e
      subst e
      rcases List.mem_cons.1 hz with e1 | e1
      · exact hn e1
      · rcases List.mem_append.1 e1 with e2 | e2
        · exact hmem e2
        · simp at e2; exact hn e2
    exact erase_partial_frame hcs n x y (hne x hx) (hne y (List.mem_cons_of_mem _ hy)) hxy

end wf

/-! ## Single-element insertion -/

section insert

variable {s : Heap} {l : list}

theorem insert_state (N : Nat) (pos : iterator) (obj : Nat) (s : Heap) :
    (list.insert N pos obj s).1 =
      ( listnode.erase_partial (Ptr.field N obj) s).link_before pos.node
        (Ptr.field N obj) (lastFrom (Ptr.field N obj) []) := rfl

theorem insert_consistent (hcs : Consistent s) (N : Nat) (pos : iterator) (obj : Nat)
    (hne : Ptr.field N obj ≠ pos.node) : Consistent (list.insert N pos obj s).1 := by
  rw [insert_state]
  exact link_consistent (erase_partial_floating hcs _) (by simpa using hne.symm)

theorem insert_linked (hcs : Consistent s) (N : Nat) (pos : iterator) (obj : Nat)
    (hne : Ptr.field N obj ≠ pos.node) :
    Linked (list.insert N pos obj s).1 (Ptr.field N obj) pos.node := by
  rw [insert_state]
  exact link_linked_last (erase_partial_floating hcs _) (by simpa using hne.symm)

theorem insert_wf_target {xs : List Ptr} (hcs : Consistent s) (hw : l.WellFormed s xs)
    (pos : iterator) (obj : Nat) (hpos : pos.node ∈ l.head :: xs)
    (hne : Ptr.field l.role obj ≠ pos.node) :
    l.WellFormed (list.insert l.role pos obj s).1
      (placeBefore pos.node [Ptr.field l.role obj] (xs.erase (Ptr.field l.role obj))) := by
  have hnh : Ptr.field l.role obj ≠ l.head := (head_ne_field l _ _).symm
  have hw1 := wf_partial_erase hcs hw (Ptr.field l.role obj) hnh
  rw [insert_state]
  refine wf_link (erase_partial_floating hcs _) (by simpa using hne.symm) hw1 ?_ ?_ ?_
  · intro x hx hxn
    have hxe : x = Ptr.field l.role obj := by simpa using hxn
    subst hxe
    rcases List.mem_cons.1 hx with e | e
    · exact hnh e
    · exact ((List.nodup_cons.1 hw.1).2.mem_erase_iff.1 e).1 rfl
  · rcases List.mem_cons.1 hpos with e | e
    · simp [e]
    · exact List.mem_cons_of_mem _ ((List.mem_erase_of_ne hne.symm).2 e)
  · intro x hx
    have hxe : x = Ptr.field l.role obj := by simpa using hx
    simp [hxe, list.to_object]

theorem insert_wf_other {xs : List Ptr} (hcs : Consistent s) (hw : l.WellFormed s xs)
    (N : Nat) (pos : iterator) (obj : Nat) (hpos : pos.node ∉ l.head :: xs)
    (hne : Ptr.field N obj ≠ pos.node) :
    l.WellFormed (list.insert N pos obj s).1 (xs.erase (Ptr.field N obj)) := by
  have hnh : Ptr.field N obj ≠ l.head := (head_ne_field l _ _).symm
  have hw1 := wf_partial_erase hcs hw (Ptr.field N obj) hnh
  rw [insert_state]
  refine wf_link_frame (erase_partial_floating hcs _) (by simpa using hne.symm) hw1 ?_ ?_
  · intro x hx hxn
    have hxe : x = Ptr.field N obj := by simpa using hxn
    subst hxe
    rcases List.mem_cons.1 hx with e | e
    · exact hnh e
    · exact ((List.nodup_cons.1 hw.1).2.mem_erase_iff.1 e).1 rfl
  · intro hin
    apply hpos
    rcases List.mem_cons.1 hin with e | e
    · simp [e]
    · exact List.mem_cons_of_mem _ (List.mem_of_mem_erase e)

theorem consistent_fresh : Consistent Heap.fresh := by
  intro p
  simp [ConsistentAt, Heap.fresh]

theorem push_back_consistent (hcs : Consistent s) (l : list) (obj : Nat) :
    Consistent (l.push_back obj s) :=
  insert_consistent hcs l.role l.end_ obj (head_ne_field l _ _).symm

theorem consistent_scenario12 : Consistent scenario12 :=
  push_back_consistent (push_back_consistent (push_back_consistent
    (push_back_consistent consistent_fresh listA 1) listA 2) listB 1) listB 2

end insert

/-! ## Splicing a run -/

section splice

variable {s : Heap} {X : list} {b : Ptr} {t l1 l2 : List Ptr}

theorem run_mem_source (x : Ptr) (hx : x ∈ b :: t) : x ∈ X.head :: (l1 ++ b :: t ++ l2) := by
  apply List.mem_cons_of_mem
  rw [List.append_assoc]
  exact List.mem_append_right _ (List.mem_append_left _ hx)

theorem rest_mem_source (x : Ptr) (hx : x ∈ X.head :: (l1 ++ l2)) :
    x ∈ X.head :: (l1 ++ b :: t ++ l2) := by
  rcases List.mem_cons.1 hx with e | e
  · simp [e]
  · apply List.mem_cons_of_mem
    rcases List.mem_append.1 e with e1 | e1
    · exact List.mem_append_left _ (List.mem_append_left _ e1)
    · exact List.mem_append_right _ e1

theorem rest_not_mem_run (hX : X.WellFormed s (l1 ++ b :: t ++ l2)) (x : Ptr)
    (hx : x ∈ X.head :: (l1 ++ l2)) : x ∉ b :: t := by
  intro hxr
  have hn' : (X.head :: (l1 ++ ((b :: t) ++ l2))).Nodup := by simpa using hX.1
  rw [List.nodup_cons, List.nodup_append] at hn'
  obtain ⟨hh, _, h2, h3⟩ := hn'
  rw [List.nodup_append] at h2
  rcases List.mem_cons.1 hx with e1 | e1
  · apply hh
    rw [← e1]
    exact List.mem_append_right _ (List.mem_append_left _ hxr)
  · rcases List.mem_append.1 e1 with e2 | e2
    · exact h3 e2 (List.mem_append_left _ hxr)
    · exact h2.2.2 hxr e2

/-- After the run has been taken out, the source list holds the rest. -/
theorem bridge_wf_source {e : Ptr} {r : List Ptr} (hcs : Consistent s)
    (hX : X.WellFormed s (l1 ++ b :: t ++ l2)) (he : l2 ++ [X.head] = e :: r) :
    X.WellFormed (s.bridge (s b).prev e) (l1 ++ l2) := by
  obtain ⟨_, hch, _, _⟩ := bridge_ring hcs X.head l1 l2 r hX.1 hX.2.1 he
  refine ⟨?_, hch, ?_⟩
  · refine hX.1.sublist (List.Sublist.cons₂ _ ?_)
    rw [List.append_assoc]
    exact List.Sublist.append_left (List.sublist_append_right _ _) l1
  · intro x hx
    apply hX.2.2
    rcases List.mem_append.1 hx with e1 | e1
    · exact List.mem_append_left _ (List.mem_append_left _ e1)
    · exact List.mem_append_right _ e1

/-- Taking the run out does not change any other list. -/
theorem bridge_wf_other {e : Ptr} {r : List Ptr} {Y : list} {ys : List Ptr}
    (hcs : Consistent s) (hX : X.WellFormed s (l1 ++ b :: t ++ l2))
    (he : l2 ++ [X.head] = e :: r) (hY : Y.WellFormed s ys) (hne : X ≠ Y) :
    Y.WellFormed (s.bridge (s b).prev e) ys := by
  obtain ⟨_, _, hle, _⟩ := bridge_ring hcs X.head l1 l2 r hX.1 hX.2.1 he
  have hdis : ∀ z, z ∈ Y.head :: ys → z ∉ b :: t :=
    fun z hz hzr => wf_disjoint hX hY hne z (run_mem_source z hzr) hz
  refine ⟨hY.1, ?_, hY.2.2⟩
  refine chain_transfer Y.head _ hY.2.1 ?_
  intro x y hx hy hxy
  have hmem : ∀ z, z ∈ Y.head :: (ys ++ [Y.head]) → z ∈ Y.head :: ys := by
    intro z hz
    rcases List.mem_cons.1 hz with e1 | e1
    · simp [e1]
    · rcases List.mem_append.1 e1 with e2 | e2
      · exact List.mem_cons_of_mem _ e2
      · simp at e2; simp [e2]
  exact bridge_frame hcs hle x y (hdis x (hmem x hx))
    (hdis y (hmem y (List.mem_cons_of_mem _ hy))) hxy

theorem insert_range_state {e : Ptr} {r : List Ptr} (hcs : Consistent s)
    (hX : X.WellFormed s (l1 ++ b :: t ++ l2)) (he : l2 ++ [X.head] = e :: r)
    (pos : iterator) :
    list.insert_range pos ⟨b⟩ ⟨e⟩ s =
      ((s.bridge (s b).prev e).link_before pos.node b (lastFrom b t), ⟨b⟩) := by
  obtain ⟨_, _, hle, _⟩ := bridge_ring hcs X.head l1 l2 r hX.1 hX.2.1 he
  have hne : (⟨b⟩ : iterator) ≠ ⟨e⟩ := by
    intro h
    have hbe : b = e := by simpa using h
    have hin : e ∈ X.head :: (l1 ++ l2) := by
      have : e ∈ l2 ++ [X.head] := by rw [he]; simp
      rcases List.mem_append.1 this with e1 | e1
      · exact List.mem_cons_of_mem _ (List.mem_append_right _ e1)
      · simp at e1; simp [e1]
    exact rest_not_mem_run hX e hin (by simp [hbe])
  have h1 := insert_range_eq_link pos ⟨b⟩ ⟨e⟩ s hne
  simp only [hle.2] at h1
  refine Prod.ext h1 ?_
  simp [list.insert_range, hne]

theorem wf_unique {l : list} {xs ys : List Ptr} (h1 : l.WellFormed s xs)
    (h2 : l.WellFormed s ys) : xs = ys := by
  have e1 := wf_elements h1 (xs.length + ys.length + 1) (by omega)
  have e2 := wf_elements h2 (xs.length + ys.length + 1) (by omega)
  rw [e1] at e2
  exact Option.some.inj e2

end splice

/-! ## Roles -/

section roles

variable {A : Nat} {s s1 : Heap}

theorem roleFrame_refl (hrc : RoleClosed s) : RoleFrame A s s := ⟨hrc, fun _ _ => rfl⟩

theorem roleFrame_set_next (h : RoleFrame A s s1) (p v : Ptr) (hp : p.role = A)
    (hv : v.role = A) : RoleFrame A s (s1.set_next p v) := by
  refine ⟨?_, ?_⟩
  · intro q
    rw [set_next_next, set_next_prev]
    refine ⟨?_, (h.1 q).2⟩
    split
    · rename_i e; rw [hv, e, hp]
    · exact (h.1 q).1
  · intro q hq
    have hqp : q ≠ p := fun e => hq (e ▸ hp)
    rw [← h.2 q hq]
    simp [Heap.set_next, hqp]

theorem roleFrame_set_prev (h : RoleFrame A s s1) (p v : Ptr) (hp : p.role = A)
    (hv : v.role = A) : RoleFrame A s (s1.set_prev p v) := by
  refine ⟨?_, ?_⟩
  · intro q
    rw [set_prev_next, set_prev_prev]
    refine ⟨(h.1 q).1, ?_⟩
    split
    · rename_i e; rw [hv, e, hp]
    · exact (h.1 q).2
  · intro q hq
    have hqp : q ≠ p := fun e => hq (e ▸ hp)
    rw [← h.2 q hq]
    simp [Heap.set_prev, hqp]

theorem roleFrame_next (h : RoleFrame A s s1) (p : Ptr) (hp : p.role = A) :
    ((s1 p).next).role = A := by rw [(h.1 p).1, hp]

theorem roleFrame_prev (h : RoleFrame A s s1) (p : Ptr) (hp : p.role = A) :
    ((s1 p).prev).role = A := by rw [(h.1 p).2, hp]

theorem roleFrame_partial_erase (h : RoleFrame A s s1) (n : Ptr) (hn : n.role = A) :
    RoleFrame A s ( listnode.erase_partial n s1) := by
  unfold listnode.erase_partial
  have h1 := roleFrame_set_next h (s1 n).prev (s1 n).next (roleFrame_prev h n hn)
    (roleFrame_next h n hn)
  exact roleFrame_set_prev h1 _ _ (roleFrame_next h1 n hn) (roleFrame_prev h1 n hn)

theorem roleFrame_erase (h : RoleFrame A s s1) (n : Ptr) (hn : n.role = A) :
    RoleFrame A s ( listnode.erase n s1) := by
  unfold listnode.erase
  exact roleFrame_set_next (roleFrame_set_prev (roleFrame_partial_erase h n hn) n n hn hn)
    n n hn hn

theorem roleFrame_insert (h : RoleFrame A s s1) (pos : iterator) (obj : Nat)
    (hpos : pos.node.role = A) : RoleFrame A s (list.insert A pos obj s1).1 := by
  unfold list.insert
  have hn : (Ptr.field A obj).role = A := rfl
  have h1 := roleFrame_partial_erase h (Ptr.field A obj) hn
  have h2 := roleFrame_set_prev h1 (Ptr.field A obj) _ hn (roleFrame_prev h1 _ hpos)
  have h3 := roleFrame_set_next h2 (Ptr.field A obj) pos.node hn hpos
  have h4 := roleFrame_set_next h3 _ (Ptr.field A obj) (roleFrame_prev h3 _ hpos) hn
  exact roleFrame_set_prev h4 pos.node (Ptr.field A obj) hpos hn

theorem roleFrame_insert_range (h : RoleFrame A s s1) (pos b e : iterator)
    (hpos : pos.node.role = A) (hb : b.node.role = A) (he : e.node.role = A) :
    RoleFrame A s (list.insert_range pos b e s1).1 := by
  unfold list.insert_range
  split
  · exact h
  · have hl : ((e.dec s1).node).role = A := roleFrame_prev h _ he
    have h1 := roleFrame_set_next h _ e.node (roleFrame_prev h _ hb) he
    have h2 := roleFrame_set_prev h1 e.node _ he (roleFrame_prev h1 _ hb)
    have h3 := roleFrame_set_prev h2 b.node _ hb (roleFrame_prev h2 _ hpos)
    have h4 := roleFrame_set_next h3 (e.dec s1).node pos.node hl hpos
    have h5 := roleFrame_set_next h4 _ b.node (roleFrame_prev h4 _ hpos) hb
    exact roleFrame_set_prev h5 pos.node (e.dec s1).node hpos hl

theorem walk_role_congr {s s' : Heap} (hrc : RoleClosed s)
    (hs : ∀ q : Ptr, q.role ≠ A → s' q = s q) (hd : Ptr) (fuel : Nat) (node : Ptr)
    (hnode : node.role ≠ A) : list.walk s' hd fuel node = list.walk s hd fuel node := by
  induction fuel generalizing node with
  | zero => rfl
  | succ f ih =>
    have hnx : ((s node).next).role ≠ A := by rw [(hrc node).1]; exact hnode
    simp only [list.walk, hs node hnode, ih _ hnx]

theorem size_loop_role_congr {s s' : Heap} (hrc : RoleClosed s)
    (hs : ∀ q : Ptr, q.role ≠ A → s' q = s q) (hd : Ptr) (fuel : Nat) (node : Ptr) (n : Nat)
    (hnode : node.role ≠ A) :
    list.size_loop s' hd fuel node n = list.size_loop s hd fuel node n := by
  induction fuel generalizing node n with
  | zero => rfl
  | succ f ih =>
    have hnx : ((s node).next).role ≠ A := by rw [(hrc node).1]; exact hnode
    simp only [list.size_loop, hs node hnode, ih _ _ hnx]

theorem roleClosed_fresh : RoleClosed Heap.fresh := by
  intro p
  simp [Heap.fresh]

theorem push_back_roleClosed {s : Heap} (hrc : RoleClosed s) (l : list) (obj : Nat) :
    RoleClosed (l.push_back obj s) :=
  (roleFrame_insert (roleFrame_refl hrc) l.end_ obj rfl).1

theorem roleClosed_scenario12 : RoleClosed scenario12 :=
  push_back_roleClosed (push_back_roleClosed (push_back_roleClosed
    (push_back_roleClosed roleClosed_fresh listA 1) listA 2) listB 1) listB 2

theorem to_object_role {N : Nat} {x : Ptr} (h : (list.to_object N x).isSome = true) :
    x.role = N := by
  cases x with
  | head r i => simp [list.to_object] at h
  | field r o =>
    by_cases hr : r = N
    · exact hr
    · simp [list.to_object, hr] at h

/-- Well-formedness of a list only looks at link fields of the list's role. -/
theorem wf_congr_role {s s' : Heap} {l : list} {xs : List Ptr}
    (hs : ∀ q : Ptr, q.role = l.role → s' q = s q) (hw : l.WellFormed s xs) :
    l.WellFormed s' xs := by
  refine ⟨hw.1, ?_, hw.2.2⟩
  have hrole : ∀ z, z ∈ l.head :: (xs ++ [l.head]) → z.role = l.role := by
    intro z hz
    rcases List.mem_cons.1 hz with e | e
    · rw [e]; rfl
    · rcases List.mem_append.1 e with e1 | e1
      · exact to_object_role (hw.2.2 z e1)
      · simp at e1; rw [e1]; rfl
  refine chain_transfer l.head _ hw.2.1 ?_
  intro x y hx hy hxy
  unfold Linked
  rw [hs x (hrole x hx), hs y (hrole y (List.mem_cons_of_mem _ hy))]
  exact hxy

theorem erase_partial_agree {s s1 : Heap} (hs : ∀ q : Ptr, q.role = A → s1 q = s q)
    (n : Ptr) (hn : n.role = A) :
    ∀ q : Ptr, q.role = A → ( listnode.erase_partial n s1) q = ( listnode.erase_partial n s) q := by
  intro q hq
  rw [erase_partial_eq_bridge, erase_partial_eq_bridge, hs n hn]
  apply listnode_ext
  · rw [bridge_prev, bridge_prev, hs q hq]
  · rw [bridge_next, bridge_next, hs q hq]

end roles

/-! ## Detaching one link field -/

section detach

variable {s : Heap} {l : list}

theorem erase_next (n q : Ptr) (s : Heap) :
    (( listnode.erase n s) q).next =
      if q = n then n else if q = (s n).prev then (s n).next else (s q).next := by
  unfold listnode.erase
  rw [erase_partial_eq_bridge]
  simp

theorem erase_prev (n q : Ptr) (s : Heap) :
    (( listnode.erase n s) q).prev =
      if q = n then n else if q = (s n).next then (s n).prev else (s q).prev := by
  unfold listnode.erase
  rw [erase_partial_eq_bridge]
  simp

theorem erase_selfRef (n : Ptr) (s : Heap) : SelfRef ( listnode.erase n s) n := by
  simp [SelfRef, erase_next, erase_prev]

theorem erase_of_selfRef (n : Ptr) (s : Heap) (h : SelfRef s n) : listnode.erase n s = s := by
  apply heap_ext
  intro q
  rw [erase_next, erase_prev]
  by_cases hq : q = n
  · subst hq
    simp [h.1, h.2]
  · simp [hq, h.1, h.2]

/-- A link between two nodes other than `n` survives `n.erase()` when `n`
itself is ring consistent. -/
theorem erase_frame (n a c : Ptr) (hn : ConsistentAt s n) (ha : a ≠ n) (hc : c ≠ n)
    (h : Linked s a c) : Linked ( listnode.erase n s) a c := by
  have haP : a ≠ (s n).prev := by
    intro e
    apply hc
    rw [← h.1, e]
    exact hn.1
  have hcN : c ≠ (s n).next := by
    intro e
    apply ha
    rw [← h.2, e]
    exact hn.2
  refine ⟨?_, ?_⟩
  · rw [erase_next]; simp [ha, haP, h.1]
  · rw [erase_prev]; simp [hc, hcN, h.2]

/-- The former neighbours of `n` are linked to each other after `n.erase()`. -/
theorem erase_closes (n : Ptr) (hP : (s n).prev ≠ n) (hN : (s n).next ≠ n) :
    Linked ( listnode.erase n s) (s n).prev (s n).next := by
  refine ⟨?_, ?_⟩
  · rw [erase_next]; simp [hP]
  · rw [erase_prev]; simp [hN]

theorem ring_linked_prev {h : Ptr} {xs : List Ptr}
    (hc : List.Chain (Linked s) h (xs ++ [h])) (x : Ptr) (hx : x ∈ h :: xs) :
    Linked s (s x).prev x := by
  have hx' : x ∈ xs ++ [h] := by
    rcases List.mem_cons.1 hx with e | e
    · simp [e]
    · exact List.mem_append_left _ e
  obtain ⟨y, _, hyx⟩ := chain_pred h _ hc x hx'
  rw [hyx.2]
  exact hyx

theorem ring_linked_next {h : Ptr} {xs : List Ptr}
    (hc : List.Chain (Linked s) h (xs ++ [h])) (x : Ptr) (hx : x ∈ h :: xs) :
    Linked s x (s x).next := by
  by_cases hxh : x = h
  · subst hxh
    cases xs with
    | nil =>
      have h1 : Linked s x x := by simpa using hc
      rw [h1.1]; exact h1
    | cons y ys =>
      simp only [List.cons_append, List.chain_cons] at hc
      rw [hc.1.1]; exact hc.1
  · have hx' : x ∈ h :: (xs ++ [h]) := by
      rcases List.mem_cons.1 hx with e | e
      · exact absurd e hxh
      · exact List.mem_cons_of_mem _ (List.mem_append_left _ e)
    have hl : x ≠ lastFrom h (xs ++ [h]) := by
      rw [lastFrom_append_singleton]; exact hxh
    obtain ⟨y, _, hxy⟩ := chain_succ h _ hc x hx' hl
    rw [hxy.1]; exact hxy

theorem wf_consistentAt {xs : List Ptr} (hw : l.WellFormed s xs) (x : Ptr)
    (hx : x ∈ l.head :: xs) : ConsistentAt s x :=
  ⟨(ring_linked_prev hw.2.1 x hx).1, (ring_linked_next hw.2.1 x hx).2⟩

/-- Erasing a member of a well-formed list: the contents lose exactly that
member.  Only the ring of the list is looked at. -/
theorem wf_erase_member {xs : List Ptr} (hw : l.WellFormed s xs) (n : Ptr) (hn : n ∈ xs) :
    l.WellFormed ( listnode.erase n s) (xs.erase n) := by
  have hcn : ConsistentAt s n := wf_consistentAt hw n (List.mem_cons_of_mem _ hn)
  obtain ⟨hnd, hc, hobj⟩ := hw
  obtain ⟨l1, l2, rfl⟩ := List.append_of_mem hn
  have hnd2 := (List.nodup_cons.1 hnd).2
  rw [List.nodup_append] at hnd2
  have hn1 : n ∉ l1 := fun e => hnd2.2.2 e (by simp)
  have hn2 : n ∉ l2 := (List.nodup_cons.1 hnd2.2.1).1
  have hnh : n ≠ l.head := fun e => (List.nodup_cons.1 hnd).1 (by simp [← e])
  have her : (l1 ++ n :: l2).erase n = l1 ++ l2 := by
    rw [List.erase_append_right _ hn1]; simp
  rw [her]
  obtain ⟨e, r, he⟩ : ∃ e r, l2 ++ [l.head] = e :: r := by
    cases l2 with
    | nil => exact ⟨_, _, rfl⟩
    | cons y ys => exact ⟨_, _, rfl⟩
  have hc' : List.Chain (Linked s) l.head (l1 ++ (n :: (e :: r))) := by
    rw [← he]; simpa using hc
  rw [chain_append_iff, List.chain_cons, List.chain_cons] at hc'
  obtain ⟨hc1, hAn, hne, hcr⟩ := hc'
  have hne' : ∀ z, z ∈ l.head :: l1 → z ≠ n := by
    intro z hz e1
    subst e1
    rcases List.mem_cons.1 hz with e2 | e2
    · exact hnh e2
    · exact hn1 e2
  have her' : ∀ z, z ∈ e :: r → z ≠ n := by
    intro z hz e1
    subst e1
    rw [← he] at hz
    rcases List.mem_append.1 hz with e2 | e2
    · exact hn2 e2
    · simp at e2; exact hnh e2
  refine ⟨?_, ?_, ?_⟩
  · refine hnd.sublist ?_
    exact List.Sublist.cons₂ _ (List.Sublist.append_left (List.sublist_cons_self n l2) l1)
  · rw [List.append_assoc, he, chain_append_iff, List.chain_cons]
    refine ⟨?_, ?_, ?_⟩
    · refine chain_transfer _ _ hc1 ?_
      intro x y hx hy hxy
      exact erase_frame n x y hcn (hne' x hx) (hne' y (List.mem_cons_of_mem _ hy)) hxy
    · have hP : (s n).prev = lastFrom l.head l1 := hAn.2
      have hN : (s n).next = e := hne.1
      have := erase_closes (s := s) n (by rw [hP]; exact hne' _ (lastFrom_mem _ _))
        (by rw [hN]; exact her' e (by simp))
      rw [hP, hN] at this
      exact this
    · refine chain_transfer _ _ hcr ?_
      intro x y hx hy hxy
      exact erase_frame n x y hcn (her' x hx) (her' y (List.mem_cons_of_mem _ hy)) hxy
  · intro x hx
    apply hobj
    rcases List.mem_append.1 hx with e1 | e1
    · exact List.mem_append_left _ e1
    · exact List.mem_append_right _ (List.mem_cons_of_mem _ e1)

/-- Erasing the sentinel of a well-formed non-empty list: the members keep
their links to one another and the last member gets linked to the first. -/
theorem erase_head_members {a : Ptr} {t : List Ptr} (hw : l.WellFormed s (a :: t)) :
    List.Chain (Linked ( listnode.erase l.head s)) a t ∧
      Linked ( listnode.erase l.head s) (lastFrom a t) a := by
  have hch : ConsistentAt s l.head := wf_consistentAt hw l.head (by simp)
  obtain ⟨hnd, hc, _⟩ := hw
  have hc' : List.Chain (Linked s) l.head ((a :: t) ++ [l.head]) := hc
  rw [chain_append_iff] at hc'
  simp only [List.chain_cons, lastFrom, List.Chain.nil, and_true] at hc'
  obtain ⟨⟨hha, hct⟩, hlh⟩ := hc'
  have hne : ∀ z, z ∈ a :: t → z ≠ l.head := by
    intro z hz e
    exact (List.nodup_cons.1 hnd).1 (e ▸ hz)
  constructor
  · refine chain_transfer _ _ hct ?_
    intro x y hx hy hxy
    exact erase_frame l.head x y hch (hne x hx) (hne y (List.mem_cons_of_mem _ hy)) hxy
  · have hP : (s l.head).prev = lastFrom a t := hlh.2
    have hN : (s l.head).next = a := hha.1
    have := erase_closes (s := s) l.head (by rw [hP]; exact hne _ (lastFrom_mem _ _))
      (by rw [hN]; exact hne a (by simp))
    rw [hP, hN] at this
    exact this

end detach

/-! ## Ends of a sequence -/

theorem lastFrom_eq_getLast? (a : Ptr) (t : List Ptr) :
    (a :: t).getLast? = some (lastFrom a t) := by
  induction t generalizing a with
  | nil => simp [lastFrom]
  | cons c t ih =>
    rw [List.getLast?_cons_cons]
    simpa [lastFrom] using ih c

theorem lastFrom_ne_head (a : Ptr) (t : List Ptr) (hn : (a :: t).Nodup) (ht : t ≠ []) :
    lastFrom a t ≠ a := by
  cases t with
  | nil => exact absurd rfl ht
  | cons c t =>
    intro e
    have hm : lastFrom c t ∈ c :: t := lastFrom_mem c t
    simp only [lastFrom] at e
    rw [e] at hm
    exact (List.nodup_cons.1 hn).1 hm

theorem erase_lastFrom (a : Ptr) (t : List Ptr) (hn : (a :: t).Nodup) :
    (a :: t).erase (lastFrom a t) = (a :: t).dropLast := by
  induction t generalizing a with
  | nil => simp [lastFrom]
  | cons c t ih =>
    have hne : a ≠ lastFrom a (c :: t) := (lastFrom_ne_head a (c :: t) hn (by simp)).symm
    rw [List.erase_cons_tail (by simpa using hne)]
    simp only [lastFrom, List.dropLast_cons₂]
    rw [ih c (List.nodup_cons.1 hn).2]

theorem chain_succ_ne {R : Ptr → Ptr → Prop} (a : Ptr) (t : List Ptr) (hn : (a :: t).Nodup)
    (hc : List.Chain R a t) (x : Ptr) (hx : x ∈ a :: t) (hl : x ≠ lastFrom a t) :
    ∃ y, y ∈ t ∧ y ≠ x ∧ R x y := by
  induction t generalizing a with
  | nil =>
    simp at hx
    exact absurd hx hl
  | cons z t ih =>
    rw [List.chain_cons] at hc
    rcases List.mem_cons.1 hx with h | h
    · refine ⟨z, by simp, ?_, h ▸ hc.1⟩
      intro e
      apply (List.nodup_cons.1 hn).1
      rw [← h, ← e]
      simp
    · obtain ⟨y, hy, hne, hr⟩ := ih z (List.nodup_cons.1 hn).2 hc.2 h hl
      exact ⟨y, List.mem_cons_of_mem _ hy, hne, hr⟩

theorem size_loop_ge (s : Heap) (hd : Ptr) (fuel : Nat) (node : Ptr) (n k : Nat)
    (h : list.size_loop s hd fuel node n = some k) : n ≤ k := by
  induction fuel generalizing node n with
  | zero => simp [list.size_loop] at h
  | succ f ih =>
    simp only [list.size_loop] at h
    split at h
    · simp at h; omega
    · have := ih _ _ h
      omega

theorem wf_first {s : Heap} {l : list} {a : Ptr} {t : List Ptr} (hw : l.WellFormed s (a :: t)) :
    (s l.head).next = a := by
  have hc := hw.2.1
  simp only [List.cons_append, List.chain_cons] at hc
  exact hc.1.1

theorem wf_last {s : Heap} {l : list} {xs : List Ptr} (hw : l.WellFormed s xs) :
    (s l.head).prev = lastFrom l.head xs := by
  have hc := hw.2.1
  rw [chain_append_iff] at hc
  have h2 : Linked s (lastFrom l.head xs) l.head := by simpa using hc.2
  exact h2.2

theorem selfRef_empty {s : Heap} {l : list} (h : SelfRef s l.head) :
    l.WellFormed s [] ∧ l.empty s = true ∧ ∀ fuel, 0 < fuel → l.size s fuel = some 0 := by
  refine ⟨⟨by simp, ?_, by simp⟩, by simp [list.empty, h.2], ?_⟩
  · simp [Linked, h.1, h.2]
  · intro fuel hf
    cases fuel with
    | zero => simp at hf
    | succ f => simp [list.size, list.size_loop, h.2]

/-! ## Walking backwards -/

theorem walk_back_of_chain (s : Heap) (h : Ptr) (l : List Ptr) (a : Ptr) (fuel : Nat)
    (hc : List.Chain (fun x y => (s x).prev = y) a (l ++ [h])) (hh : h ∉ l)
    (hf : l.length < fuel) : list.walk_back s h fuel (s a).prev = some l := by
  induction l generalizing a fuel with
  | nil =>
    cases fuel with
    | zero => simp at hf
    | succ f =>
      simp at hc
      simp [list.walk_back, hc]
  | cons x l ih =>
    cases fuel with
    | zero => simp at hf
    | succ f =>
      simp only [List.cons_append, List.chain_cons] at hc
      have hxh : x ≠ h := fun e => hh (by simp [e])
      have hh2 : h ∉ l := fun e => hh (List.mem_cons_of_mem _ e)
      have hf2 : l.length < f := by simpa using hf
      simp [list.walk_back, hc.1, hxh, ih x f hc.2 hh2 hf2]

/-- Read backwards, the ring of a well-formed list is a `prev` path from the
sentinel through the reversed contents back to the sentinel. -/
theorem wf_prev_chain {s : Heap} {l : list} {xs : List Ptr} (hw : l.WellFormed s xs) :
    List.Chain (fun x y => (s x).prev = y) l.head (xs.reverse ++ [l.head]) := by
  have h1 : List.Chain' (Linked s) (l.head :: (xs ++ [l.head])) := hw.2.1
  have h2 : List.Chain' (flip (Linked s)) (l.head :: (xs ++ [l.head])).reverse :=
    List.chain'_reverse.2 (by simpa [flip] using h1)
  have h3 : (l.head :: (xs ++ [l.head])).reverse = l.head :: (xs.reverse ++ [l.head]) := by
    simp
  rw [h3] at h2
  have h4 : List.Chain (flip (Linked s)) l.head (xs.reverse ++ [l.head]) := h2
  exact h4.imp (fun x y hxy => hxy.2)

/-! ## Contiguous runs of a ring -/

section run

variable {s : Heap} {b e : Ptr} {t : List Ptr}

theorem run_next_ne_first (hnd : (b :: t).Nodup) (hch : List.Chain (Linked s) b t)
    (hle : (s (lastFrom b t)).next = e) (he : e ∉ b :: t) (x : Ptr) (hx : x ∈ b :: t) :
    (s x).next ≠ b := by
  by_cases hl : x = lastFrom b t
  · rw [hl, hle]
    intro h
    exact he (by simp [h])
  · obtain ⟨y, hy, hxy⟩ := chain_succ b t hch x hx hl
    rw [hxy.1]
    intro h
    exact (List.nodup_cons.1 hnd).1 (h ▸ hy)

/-- The nodes from `b` up to, not including, `e` are pairwise different. -/
theorem run_nodup (hch : List.Chain (Linked s) b t) (hle : (s (lastFrom b t)).next = e)
    (he : e ∉ b :: t) : (b :: t).Nodup := by
  induction t generalizing b with
  | nil => simp
  | cons c t ih =>
    rw [List.chain_cons] at hch
    have he2 : e ∉ c :: t := fun h => he (List.mem_cons_of_mem _ h)
    have hnd := ih hch.2 hle he2
    refine List.nodup_cons.2 ⟨?_, hnd⟩
    intro hin
    exact run_next_ne_first hnd hch.2 hle he2 b hin hch.1.1

theorem run_pred_not_mem (hcs : Consistent s) (hch : List.Chain (Linked s) b t)
    (hle : (s (lastFrom b t)).next = e) (he : e ∉ b :: t) : (s b).prev ∉ b :: t := by
  intro hin
  exact run_next_ne_first (run_nodup hch hle he) hch hle he _ hin (hcs b).1

theorem run_last_linked (hcs : Consistent s) (hle : (s (lastFrom b t)).next = e) :
    Linked s (lastFrom b t) e := by
  refine ⟨hle, ?_⟩
  rw [← hle]
  exact (hcs _).2

theorem run_floating (hcs : Consistent s) (hch : List.Chain (Linked s) b t)
    (hle : (s (lastFrom b t)).next = e) (he : e ∉ b :: t) :
    Floating (s.bridge (s b).prev e) b t :=
  bridge_floating hcs (run_nodup hch hle he) hch (run_pred_not_mem hcs hch hle he) he
    (run_last_linked hcs hle)

theorem run_insert_range_state (hcs : Consistent s) (hle : (s (lastFrom b t)).next = e)
    (he : e ∉ b :: t) (pos : iterator) :
    list.insert_range pos ⟨b⟩ ⟨e⟩ s =
      ((s.bridge (s b).prev e).link_before pos.node b (lastFrom b t), ⟨b⟩) := by
  have hne : (⟨b⟩ : iterator) ≠ ⟨e⟩ := by
    intro h
    have hbe : b = e := by simpa using h
    exact he (by simp [hbe])
  have h1 := insert_range_eq_link pos ⟨b⟩ ⟨e⟩ s hne
  simp only [(run_last_linked hcs hle).2] at h1
  refine Prod.ext h1 ?_
  simp [list.insert_range, hne]

theorem erase_consistent (hcs : Consistent s) (n : Ptr) : Consistent ( listnode.erase n s) := by
  have hf := erase_partial_floating hcs n
  intro m
  by_cases hm : m = n
  · subst hm
    simp [ConsistentAt, listnode.erase]
  · have hd := hf.detached m (by simpa using hm)
    have hc := hf.consistent m (by simpa using hm)
    have h1 : (( listnode.erase_partial n s) m).next ≠ n := by simpa using hd.1
    have h2 : (( listnode.erase_partial n s) m).prev ≠ n := by simpa using hd.2
    unfold ConsistentAt at hc ⊢
    unfold listnode.erase
    simp [hm, h1, h2, hc.1, hc.2]

end run

/-! ## Following `next` in a finite consistent state -/

section finite

variable {s : Heap}

theorem visited_length (s : Heap) (node : Ptr) (m : Nat) : (visited s node m).length = m := by
  induction m generalizing node with
  | zero => rfl
  | succ m ih => simp [visited, ih]

theorem mem_visited (s : Heap) (node : Ptr) (m : Nat) (x : Ptr) (hx : x ∈ visited s node m) :
    ∃ i, i < m ∧ (fun p => (s p).next)^[i] node = x := by
  induction m generalizing node with
  | zero => simp [visited] at hx
  | succ m ih =>
    simp only [visited, List.mem_cons] at hx
    rcases hx with h | h
    · exact ⟨0, by omega, by simp [h]⟩
    · obtain ⟨i, hi, hxi⟩ := ih _ h
      exact ⟨i + 1, by omega, by rw [Function.iterate_succ_apply]; exact hxi⟩

theorem visited_nodup (s : Heap) (node : Ptr) (m : Nat)
    (hinj : ∀ i j, i < m → j < m →
      (fun p => (s p).next)^[i] node = (fun p => (s p).next)^[j] node → i = j) :
    (visited s node m).Nodup := by
  induction m generalizing node with
  | zero => simp [visited]
  | succ m ih =>
    simp only [visited]
    refine List.nodup_cons.2 ⟨?_, ih _ ?_⟩
    · intro hin
      obtain ⟨i, hi, hxi⟩ := mem_visited s _ m node hin
      have := hinj (i + 1) 0 (by omega) (by omega)
        (by rw [Function.iterate_succ_apply]; simpa using hxi)
      omega
    · intro i j hi hj hij
      have := hinj (i + 1) (j + 1) (by omega) (by omega)
        (by rw [Function.iterate_succ_apply, Function.iterate_succ_apply]; exact hij)
      omega

theorem visited_chain (live : Finset Ptr) (hcs : ∀ p ∈ live, ConsistentAt s p)
    (hcl : ∀ p ∈ live, (s p).next ∈ live) (a : Ptr) (ha : a ∈ live) (m : Nat) :
    List.Chain (Linked s) a
      (visited s (s a).next m ++ [(fun p => (s p).next)^[m + 1] a]) := by
  induction m generalizing a with
  | zero =>
    simp only [visited, List.nil_append, List.chain_cons, List.Chain.nil, and_true]
    exact ⟨rfl, (hcs a ha).2⟩
  | succ m ih =>
    simp only [visited, List.cons_append, List.chain_cons]
    refine ⟨⟨rfl, (hcs a ha).2⟩, ?_⟩
    have := ih (s a).next (hcl a ha)
    rw [Function.iterate_succ_apply]
    exact this

theorem iterate_next_mem (live : Finset Ptr) (hcl : ∀ p ∈ live, (s p).next ∈ live) (a : Ptr)
    (ha : a ∈ live) (i : Nat) : (fun p => (s p).next)^[i] a ∈ live := by
  induction i generalizing a with
  | zero => simpa using ha
  | succ i ih =>
    rw [Function.iterate_succ_apply]
    exact ih _ (hcl a ha)

theorem iterate_next_inj (live : Finset Ptr) (hcs : ∀ p ∈ live, ConsistentAt s p)
    (hcl : ∀ p ∈ live, (s p).next ∈ live) (i : Nat) (x y : Ptr) (hx : x ∈ live)
    (hy : y ∈ live)
    (h : (fun p => (s p).next)^[i] x = (fun p => (s p).next)^[i] y) : x = y := by
  induction i generalizing x y with
  | zero => simpa using h
  | succ i ih =>
    rw [Function.iterate_succ_apply, Function.iterate_succ_apply] at h
    have h1 : (s x).next = (s y).next := ih _ _ (hcl x hx) (hcl y hy) h
    rw [← (hcs x hx).2, h1, (hcs y hy).2]

/-- In a finite set of ring-consistent link fields closed under `next`, every
node comes back to itself along `next`. -/
theorem next_periodic (live : Finset Ptr) (hcs : ∀ p ∈ live, ConsistentAt s p)
    (hcl : ∀ p ∈ live, (s p).next ∈ live) (a : Ptr) (ha : a ∈ live) :
    a ∈ Function.periodicPts (fun p => (s p).next) := by
  obtain ⟨i, _, j, _, hij, heq⟩ :=
    Finset.exists_ne_map_eq_of_card_lt_of_maps_to
      (s := Finset.range (live.card + 1)) (t := live) (by simp)
      (f := fun i => (fun p => (s p).next)^[i] a)
      (fun i _ => iterate_next_mem live hcl a ha i)
  have key : ∀ i j : Nat, i < j →
      (fun p => (s p).next)^[i] a = (fun p => (s p).next)^[j] a →
      a ∈ Function.periodicPts (fun p => (s p).next) := by
    intro i j hlt h
    have hj : j = i + (j - i) := by omega
    rw [hj, Function.iterate_add_apply] at h
    have := iterate_next_inj live hcs hcl i _ _ ha (iterate_next_mem live hcl a ha (j - i)) h
    exact Function.mk_mem_periodicPts (n := j - i) (by omega) this.symm
  rcases Nat.lt_or_gt_of_ne hij with h | h
  · exact key i j h heq
  · exact key j i h heq.symm

end finite

/-! ## Former members after the sentinel is detached -/

/-- After the sentinel of a well-formed non-empty list has been erased, a sole
former member is self-referential, and with two or more former members none
is. -/
theorem erase_head_selfRef {s : Heap} {l : list} {a : Ptr} {t : List Ptr}
    (hw : l.WellFormed s (a :: t)) :
    (t = [] → SelfRef ( listnode.erase l.head s) a) ∧
    (t ≠ [] → ∀ m ∈ a :: t, ¬ SelfRef ( listnode.erase l.head s) m) := by
  have hm := erase_head_members hw
  have hnd : (a :: t).Nodup := (List.nodup_cons.1 hw.1).2
  refine ⟨?_, ?_⟩
  · intro ht
    subst ht
    have h1 : Linked ( listnode.erase l.head s) a a := hm.2
    exact ⟨h1.2, h1.1⟩
  · intro ht m hmem hself
    by_cases hl : m = lastFrom a t
    · have h1 : (( listnode.erase l.head s) m).next = a := by rw [hl]; exact hm.2.1
      rw [hself.2] at h1
      exact lastFrom_ne_head a t hnd ht (hl ▸ h1)
    · obtain ⟨y, _, hne, hxy⟩ := chain_succ_ne a t hnd hm.1 m hmem hl
      have h1 : (( listnode.erase l.head s) m).next = y := hxy.1
      rw [hself.2] at h1
      exact hne h1.symm

/-! ## Linking and unlinking seen from the rings involved only -/

section dock

variable {s : Heap} {b pos : Ptr} {t : List Ptr}

theorem dock_linked_last (hd : Dock s b t pos) :
    Linked (s.link_before pos b (lastFrom b t)) (lastFrom b t) pos := by
  have hne := link_pos_ne hd.pos_out
  have hq : lastFrom b t ≠ (s pos).prev := fun h => hd.pred_out (h ▸ lastFrom_mem b t)
  refine ⟨?_, ?_⟩
  · rw [link_before_next _ _ _ _ _ hne]; simp [hq]
  · rw [link_before_prev]; simp

theorem dock_frame (hd : Dock s b t pos) (a c : Ptr) (ha : a ∉ b :: t) (hc : c ∉ b :: t)
    (hcp : c ≠ pos) (h : Linked s a c) : Linked (s.link_before pos b (lastFrom b t)) a c := by
  have hne := link_pos_ne hd.pos_out
  have haq : a ≠ (s pos).prev := by
    intro e
    apply hcp
    rw [← h.1, e]
    exact hd.pred_link
  have hal : a ≠ lastFrom b t := fun e => ha (e ▸ lastFrom_mem b t)
  have hcb : c ≠ b := fun e => hc (by simp [e])
  refine ⟨?_, ?_⟩
  · rw [link_before_next _ _ _ _ _ hne]; simp [haq, hal, h.1]
  · rw [link_before_prev]; simp [hcp, hcb, h.2]

theorem dock_inner (hd : Dock s b t pos) :
    List.Chain (Linked (s.link_before pos b (lastFrom b t))) b t := by
  have hne := link_pos_ne hd.pos_out
  refine chain_transfer_nodup b t hd.nodup hd.chain ?_
  intro x y hx hy hxl hyb h
  have hxq : x ≠ (s pos).prev := fun e => hd.pred_out (e ▸ hx)
  have hyp : y ≠ pos := fun e => hd.pos_out (e ▸ List.mem_cons_of_mem _ hy)
  refine ⟨?_, ?_⟩
  · rw [link_before_next _ _ _ _ _ hne]; simp [hxq, hxl, h.1]
  · rw [link_before_prev]; simp [hyp, hyb, h.2]

theorem dock_chain_frame (hd : Dock s b t pos) (a : Ptr) (l : List Ptr) (ha : a ∉ b :: t)
    (hl : ∀ x ∈ l, x ∉ b :: t ∧ x ≠ pos) (hc : List.Chain (Linked s) a l) :
    List.Chain (Linked (s.link_before pos b (lastFrom b t))) a l := by
  refine chain_transfer a l hc ?_
  intro x y hx hy h
  refine dock_frame hd x y ?_ (hl y hy).1 (hl y hy).2 h
  rcases List.mem_cons.1 hx with e | e
  · exact e ▸ ha
  · exact (hl x e).1

theorem dock_chain_place (hd : Dock s b t pos) (a h : Ptr) (l : List Ptr) (ha : a ∉ b :: t)
    (hl : ∀ x ∈ l ++ [h], x ∉ b :: t) (hn : (l ++ [h]).Nodup) (hp : pos ∈ l ++ [h])
    (hc : List.Chain (Linked s) a (l ++ [h])) :
    List.Chain (Linked (s.link_before pos b (lastFrom b t))) a
      (placeBefore pos (b :: t) l ++ [h]) := by
  have hpos := hd.pos_out
  induction l generalizing a with
  | nil =>
    have hph : pos = h := by simpa using hp
    subst hph
    have hc1 : Linked s a pos := by simpa using hc
    have haq : a = (s pos).prev := hc1.2.symm
    simp only [placeBefore, List.cons_append, List.chain_cons]
    refine ⟨haq ▸ link_linked_first hpos, ?_⟩
    rw [chain_append_iff]
    exact ⟨dock_inner hd, by simpa using dock_linked_last hd⟩
  | cons x l ih =>
    simp only [List.cons_append, List.chain_cons] at hc
    have hn2 : (l ++ [h]).Nodup := (List.nodup_cons.1 hn).2
    have hxn : x ∉ l ++ [h] := (List.nodup_cons.1 hn).1
    have hl2 : ∀ y ∈ l ++ [h], y ∉ b :: t := fun y hy => hl y (List.mem_cons_of_mem _ hy)
    have hxr : x ∉ b :: t := hl x (by simp)
    by_cases hx : x = pos
    · subst hx
      have haq : a = (s x).prev := hc.1.2.symm
      simp only [placeBefore, if_true, List.cons_append, List.chain_cons]
      refine ⟨haq ▸ link_linked_first hpos, ?_⟩
      rw [List.append_assoc, chain_append_iff]
      refine ⟨dock_inner hd, ?_⟩
      simp only [List.cons_append, List.chain_cons]
      refine ⟨dock_linked_last hd, ?_⟩
      refine dock_chain_frame hd x (l ++ [h]) hxr ?_ hc.2
      intro y hy
      exact ⟨hl2 y hy, fun e => hxn (e ▸ hy)⟩
    · have hp2 : pos ∈ l ++ [h] := by
        rcases List.mem_cons.1 hp with e | e
        · exact absurd e.symm hx
        · exact e
      simp only [placeBefore, if_neg hx, List.cons_append, List.chain_cons]
      exact ⟨dock_frame hd a x ha hxr hx hc.1, ih x hxr hl2 hn2 hp2 hc.2⟩

variable {l : list}

/-- A position of a well-formed list whose ring avoids the run can take the
run. -/
theorem dock_of_wf {ys : List Ptr} (hnd : (b :: t).Nodup) (hch : List.Chain (Linked s) b t)
    (hw : l.WellFormed s ys) (hdis : ∀ x ∈ l.head :: ys, x ∉ b :: t)
    (hp : pos ∈ l.head :: ys) : Dock s b t pos :=
  ⟨hnd, hch, hdis pos hp, hdis _ (ring_prev_mem hw.2.1 pos hp), (wf_consistentAt hw pos hp).1⟩

theorem wf_dock {ys : List Ptr} (hnd : (b :: t).Nodup) (hch : List.Chain (Linked s) b t)
    (hw : l.WellFormed s ys) (hdis : ∀ x ∈ l.head :: ys, x ∉ b :: t)
    (hp : pos ∈ l.head :: ys) (hty : ∀ x ∈ b :: t, (list.to_object l.role x).isSome = true) :
    l.WellFormed (s.link_before pos b (lastFrom b t)) (placeBefore pos (b :: t) ys) := by
  have hd := dock_of_wf hnd hch hw hdis hp
  obtain ⟨hn, hc, hobj⟩ := hw
  have hperm := placeBefore_perm pos (b :: t) ys
  refine ⟨?_, ?_, ?_⟩
  · rw [List.nodup_cons] at hn ⊢
    refine ⟨?_, hperm.nodup_iff.2 ?_⟩
    · intro hin
      rcases List.mem_append.1 (hperm.mem_iff.1 hin) with e | e
      · exact hdis l.head (by simp) e
      · exact hn.1 e
    · rw [List.nodup_append]
      refine ⟨hnd, hn.2, ?_⟩
      intro x hx hy
      exact hdis x (List.mem_cons_of_mem _ hy) hx
  · refine dock_chain_place hd l.head l.head ys (hdis l.head (by simp)) ?_
      (nodup_snoc_of_cons hn) ?_ hc
    · intro x hx
      apply hdis
      rcases List.mem_append.1 hx with e | e
      · exact List.mem_cons_of_mem _ e
      · simp at e; simp [e]
    · rcases List.mem_cons.1 hp with e | e
      · simp [e]
      · exact List.mem_append_left _ e
  · intro x hx
    rcases List.mem_append.1 (hperm.mem_iff.1 hx) with e | e
    · exact hty x e
    · exact hobj x e

theorem wf_dock_frame {ys : List Ptr} (hd : Dock s b t pos) (hw : l.WellFormed s ys)
    (hdis : ∀ x ∈ l.head :: ys, x ∉ b :: t) (hp : pos ∉ l.head :: ys) :
    l.WellFormed (s.link_before pos b (lastFrom b t)) ys := by
  obtain ⟨hn, hc, hobj⟩ := hw
  refine ⟨hn, ?_, hobj⟩
  refine dock_chain_frame hd l.head (ys ++ [l.head]) (hdis l.head (by simp)) ?_ hc
  intro x hx
  have hx' : x ∈ l.head :: ys := by
    rcases List.mem_append.1 hx with e | e
    · exact List.mem_cons_of_mem _ e
    · simp at e; simp [e]
  exact ⟨hdis x hx', fun e => hp (e ▸ hx')⟩

end dock

/-! ## Unlinking seen from the rings involved only -/

section unlink

variable {s : Heap} {l : list}

theorem erase_partial_frame_at (n a c : Ptr) (hn : ConsistentAt s n) (ha : a ≠ n)
    (hc : c ≠ n) (h : Linked s a c) : Linked ( listnode.erase_partial n s) a c := by
  rw [erase_partial_eq_bridge]
  have haP : a ≠ (s n).prev := by
    intro e
    apply hc
    rw [← h.1, e]
    exact hn.1
  have hcN : c ≠ (s n).next := by
    intro e
    apply ha
    rw [← h.2, e]
    exact hn.2
  simp [Linked, haP, hcN, h.1, h.2]

/-- The effect of `erase_partial` on a well-formed list whose sentinel is not
the erased node, when the erased node itself is ring consistent. -/
theorem wf_partial_erase_at {xs : List Ptr} (n : Ptr) (hcn : ConsistentAt s n)
    (hw : l.WellFormed s xs) (hnh : n ≠ l.head) :
    l.WellFormed ( listnode.erase_partial n s) (xs.erase n) := by
  obtain ⟨hnd, hc, hobj⟩ := hw
  by_cases hmem : n ∈ xs
  · obtain ⟨l1, l2, rfl⟩ := List.append_of_mem hmem
    have hnd2 := (List.nodup_cons.1 hnd).2
    rw [List.nodup_append] at hnd2
    have hn1 : n ∉ l1 := fun e => hnd2.2.2 e (by simp)
    have hn2 : n ∉ l2 := (List.nodup_cons.1 hnd2.2.1).1
    have her : (l1 ++ n :: l2).erase n = l1 ++ l2 := by
      rw [List.erase_append_right _ hn1]; simp
    rw [her]
    obtain ⟨e, r, he⟩ : ∃ e r, l2 ++ [l.head] = e :: r := by
      cases l2 with
      | nil => exact ⟨_, _, rfl⟩
      | cons y ys => exact ⟨_, _, rfl⟩
    have hc' : List.Chain (Linked s) l.head (l1 ++ (n :: (e :: r))) := by
      rw [← he]; simpa using hc
    rw [chain_append_iff, List.chain_cons, List.chain_cons] at hc'
    obtain ⟨hc1, hAn, hne, hcr⟩ := hc'
    have hne' : ∀ z, z ∈ l.head :: l1 → z ≠ n := by
      intro z hz e1
      subst e1
      rcases List.mem_cons.1 hz with e2 | e2
      · exact hnh e2
      · exact hn1 e2
    have her' : ∀ z, z ∈ e :: r → z ≠ n := by
      intro z hz e1
      subst e1
      rw [← he] at hz
      rcases List.mem_append.1 hz with e2 | e2
      · exact hn2 e2
      · simp at e2; exact hnh e2
    refine ⟨?_, ?_, ?_⟩
    · refine hnd.sublist ?_
      exact List.Sublist.cons₂ _ (List.Sublist.append_left (List.sublist_cons_self n l2) l1)
    · rw [List.append_assoc, he, chain_append_iff, List.chain_cons]
      refine ⟨?_, ?_, ?_⟩
      · refine chain_transfer _ _ hc1 ?_
        intro x y hx hy hxy
        exact erase_partial_frame_at n x y hcn (hne' x hx)
          (hne' y (List.mem_cons_of_mem _ hy)) hxy
      · have := bridge_linked s (s n).prev (s n).next
        rw [← erase_partial_eq_bridge, hAn.2, hne.1] at this
        exact this
      · refine chain_transfer _ _ hcr ?_
        intro x y hx hy hxy
        exact erase_partial_frame_at n x y hcn (her' x hx)
          (her' y (List.mem_cons_of_mem _ hy)) hxy
    · intro x hx
      apply hobj
      rcases List.mem_append.1 hx with e1 | e1
      · exact List.mem_append_left _ e1
      · exact List.mem_append_right _ (List.mem_cons_of_mem _ e1)
  · rw [List.erase_of_not_mem hmem]
    refine ⟨hnd, ?_, hobj⟩
    refine chain_transfer l.head _ hc ?_
    intro x y hx hy hxy
    have hne : ∀ z, z ∈ l.head :: (xs ++ [l.head]) → z ≠ n := by
      intro z hz e
      subst e
      rcases List.mem_cons.1 hz with e1 | e1
      · exact hnh e1
      · rcases List.mem_append.1 e1 with e2 | e2
        · exact hmem e2
        · simp at e2; exact hnh e2
    exact erase_partial_frame_at n x y hcn (hne x hx) (hne y (List.mem_cons_of_mem _ hy)) hxy

theorem not_mem_erase_ring {xs : List Ptr} (n : Ptr) (hw : l.WellFormed s xs)
    (hnh : n ≠ l.head) : ∀ x ∈ l.head :: xs.erase n, x ∉ [n] := by
  intro x hx hxn
  have hxe : x = n := by simpa using hxn
  subst hxe
  rcases List.mem_cons.1 hx with e | e
  · exact hnh e
  · exact ((List.nodup_cons.1 hw.1).2.mem_erase_iff.1 e).1 rfl

/-- `insert(pos, obj)` on the list that owns `pos`, when the link field of
`obj` is ring consistent and is not `pos`. -/
theorem insert_wf_target_at {xs : List Ptr} (pos : iterator) (obj : Nat)
    (hcn : ConsistentAt s (Ptr.field l.role obj)) (hw : l.WellFormed s xs)
    (hpos : pos.node ∈ l.head :: xs) (hne : Ptr.field l.role obj ≠ pos.node) :
    l.WellFormed (list.insert l.role pos obj s).1
      (placeBefore pos.node [Ptr.field l.role obj] (xs.erase (Ptr.field l.role obj))) := by
  have hnh : Ptr.field l.role obj ≠ l.head := (head_ne_field l _ _).symm
  have hw1 := wf_partial_erase_at (Ptr.field l.role obj) hcn hw hnh
  rw [insert_state]
  refine wf_dock (by simp) List.Chain.nil hw1 (not_mem_erase_ring _ hw hnh) ?_ ?_
  · rcases List.mem_cons.1 hpos with e | e
    · simp [e]
    · exact List.mem_cons_of_mem _ ((List.mem_erase_of_ne hne.symm).2 e)
  · intro x hx
    have hxe : x = Ptr.field l.role obj := by simpa using hx
    simp [hxe, list.to_object]

/-- `insert(pos, obj)` with `pos` a position of the list `Y`, seen from a
list `X` that does not own `pos`: `X` loses `obj`. -/
theorem insert_wf_other_at {X Y : list} {xs ys : List Ptr} (N : Nat) (pos : iterator)
    (obj : Nat) (hcn : ConsistentAt s (Ptr.field N obj)) (hX : X.WellFormed s xs)
    (hY : Y.WellFormed s ys) (hposY : pos.node ∈ Y.head :: ys)
    (hposX : pos.node ∉ X.head :: xs) (hne : Ptr.field N obj ≠ pos.node) :
    X.WellFormed (list.insert N pos obj s).1 (xs.erase (Ptr.field N obj)) := by
  have hnX : Ptr.field N obj ≠ X.head := (head_ne_field X _ _).symm
  have hnY : Ptr.field N obj ≠ Y.head := (head_ne_field Y _ _).symm
  have hX1 := wf_partial_erase_at (Ptr.field N obj) hcn hX hnX
  have hY1 := wf_partial_erase_at (Ptr.field N obj) hcn hY hnY
  have hp1 : pos.node ∈ Y.head :: ys.erase (Ptr.field N obj) := by
    rcases List.mem_cons.1 hposY with e | e
    · simp [e]
    · exact List.mem_cons_of_mem _ ((List.mem_erase_of_ne hne.symm).2 e)
  have hd : Dock ( listnode.erase_partial (Ptr.field N obj) s) (Ptr.field N obj) [] pos.node :=
    dock_of_wf (by simp) List.Chain.nil hY1 (not_mem_erase_ring _ hY hnY) hp1
  rw [insert_state]
  refine wf_dock_frame hd hX1 (not_mem_erase_ring _ hX hnX) ?_
  intro hin
  apply hposX
  rcases List.mem_cons.1 hin with e | e
  · simp [e]
  · exact List.mem_cons_of_mem _ (List.mem_of_mem_erase e)

/-- The link field of an object that is unlinked or a member of a well-formed
list is ring consistent. -/
theorem consistentAt_of_obj_state (n : Ptr)
    (h : SelfRef s n ∨ ∃ (l2 : list) (zs : List Ptr), l2.WellFormed s zs ∧ n ∈ zs) :
    ConsistentAt s n := by
  rcases h with h | ⟨l2, zs, hw, hn⟩
  · exact ⟨by rw [h.1]; exact h.2, by rw [h.2]; exact h.1⟩
  · exact wf_consistentAt hw n (List.mem_cons_of_mem _ hn)

end unlink

/-! ## Splicing a run seen from the rings involved only -/

section splice_at

variable {s : Heap} {X : list} {b e : Ptr} {t l1 l2 r : List Ptr}

theorem bridge_frame_at (hAb : (s (s b).prev).next = b) (hle : Linked s (lastFrom b t) e)
    (a c : Ptr) (ha : a ∉ b :: t) (hc : c ∉ b :: t) (h : Linked s a c) :
    Linked (s.bridge (s b).prev e) a c := by
  have haA : a ≠ (s b).prev := by
    intro ea
    apply hc
    rw [← h.1, ea, hAb]
    simp
  have hce : c ≠ e := by
    intro ec
    apply ha
    rw [← h.2, ec, hle.2]
    exact lastFrom_mem b t
  simp [Linked, haA, hce, h.1, h.2]

/-- Taking a run of members out of a well-formed list, from the ring of that
list alone: the run stays internally linked, the ring closes over the gap, and
links between nodes outside the run survive. -/
theorem bridge_ring_at (hX : X.WellFormed s (l1 ++ b :: t ++ l2))
    (he : l2 ++ [X.head] = e :: r) :
    List.Chain (Linked (s.bridge (s b).prev e)) b t ∧
      X.WellFormed (s.bridge (s b).prev e) (l1 ++ l2) ∧
      Linked s (lastFrom b t) e ∧ (b :: t).Nodup ∧ e ∉ b :: t ∧
      (∀ a c, a ∉ b :: t → c ∉ b :: t → Linked s a c →
        Linked (s.bridge (s b).prev e) a c) := by
  have hc' : List.Chain (Linked s) X.head (l1 ++ (b :: (t ++ (e :: r)))) := by
    have : l1 ++ b :: t ++ l2 ++ [X.head] = l1 ++ (b :: (t ++ (e :: r))) := by
      rw [← he]; simp
    rw [← this]; exact hX.2.1
  rw [chain_append_iff, List.chain_cons, chain_append_iff, List.chain_cons] at hc'
  obtain ⟨hc1, hAb, hct, hle, hcr⟩ := hc'
  have hAb' : (s (s b).prev).next = b := by rw [hAb.2]; exact hAb.1
  have hnd : (b :: t).Nodup := by
    have h1 := (List.nodup_cons.1 hX.1).2
    rw [List.append_assoc] at h1
    exact (List.nodup_append.1 (List.nodup_append.1 h1).2.1).1
  have hdis : ∀ x, x ∈ X.head :: (l1 ++ l2) → x ∉ b :: t := rest_not_mem_run hX
  have hA : (s b).prev ∉ b :: t := by
    rw [hAb.2]
    apply hdis
    rcases List.mem_cons.1 (lastFrom_mem X.head l1) with e1 | e1
    · rw [e1]; simp
    · exact List.mem_cons_of_mem _ (List.mem_append_left _ e1)
  have her : ∀ x ∈ e :: r, x ∉ b :: t := by
    intro x hx
    rw [← he] at hx
    apply hdis
    rcases List.mem_append.1 hx with e1 | e1
    · exact List.mem_cons_of_mem _ (List.mem_append_right _ e1)
    · simp at e1; simp [e1]
  have he' : e ∉ b :: t := her e (by simp)
  have hfr : ∀ a c, a ∉ b :: t → c ∉ b :: t → Linked s a c →
      Linked (s.bridge (s b).prev e) a c := bridge_frame_at hAb' hle
  refine ⟨?_, ⟨?_, ?_, ?_⟩, hle, hnd, he', hfr⟩
  · refine chain_transfer b t hct ?_
    intro x y hx hy h
    have hxA : x ≠ (s b).prev := fun ex => hA (ex ▸ hx)
    have hye : y ≠ e := fun ey => he' (ey ▸ List.mem_cons_of_mem _ hy)
    simp [Linked, hxA, hye, h.1, h.2]
  · refine hX.1.sublist (List.Sublist.cons₂ _ ?_)
    rw [List.append_assoc]
    exact List.Sublist.append_left (List.sublist_append_right _ _) l1
  · rw [List.append_assoc, he, chain_append_iff, List.chain_cons]
    refine ⟨?_, ?_, ?_⟩
    · refine chain_transfer X.head l1 hc1 ?_
      intro x y hx hy hxy
      refine hfr x y (hdis x ?_) (hdis y ?_) hxy
      · rcases List.mem_cons.1 hx with e1 | e1
        · simp [e1]
        · exact List.mem_cons_of_mem _ (List.mem_append_left _ e1)
      · exact List.mem_cons_of_mem _ (List.mem_append_left _ hy)
    · rw [← hAb.2]
      exact bridge_linked s _ e
    · refine chain_transfer e r hcr ?_
      intro x y hx hy hxy
      exact hfr x y (her x hx) (her y (List.mem_cons_of_mem _ hy)) hxy
  · intro x hx
    apply hX.2.2
    rcases List.mem_append.1 hx with e1 | e1
    · exact List.mem_append_left _ (List.mem_append_left _ e1)
    · exact List.mem_append_right _ e1

theorem bridge_wf_other_at {Y : list} {ys : List Ptr}
    (hX : X.WellFormed s (l1 ++ b :: t ++ l2)) (he : l2 ++ [X.head] = e :: r)
    (hY : Y.WellFormed s ys) (hne : X ≠ Y) : Y.WellFormed (s.bridge (s b).prev e) ys := by
  obtain ⟨_, _, _, _, _, hfr⟩ := bridge_ring_at hX he
  have hdis : ∀ z, z ∈ Y.head :: ys → z ∉ b :: t :=
    fun z hz hzr => wf_disjoint hX hY hne z (run_mem_source z hzr) hz
  refine ⟨hY.1, ?_, hY.2.2⟩
  refine chain_transfer Y.head _ hY.2.1 ?_
  intro x y hx hy hxy
  have hmem : ∀ z, z ∈ Y.head :: (ys ++ [Y.head]) → z ∈ Y.head :: ys := by
    intro z hz
    rcases List.mem_cons.1 hz with e1 | e1
    · simp [e1]
    · rcases List.mem_append.1 e1 with e2 | e2
      · exact List.mem_cons_of_mem _ e2
      · simp at e2; simp [e2]
  exact hfr x y (hdis x (hmem x hx)) (hdis y (hmem y (List.mem_cons_of_mem _ hy))) hxy

/-- The state after a splice whose range is not empty, given only that `e` is
directly preceded by the last node of the run. -/
theorem insert_range_state_at (hle : Linked s (lastFrom b t) e) (he : e ∉ b :: t)
    (pos : iterator) :
    list.insert_range pos ⟨b⟩ ⟨e⟩ s =
      ((s.bridge (s b).prev e).link_before pos.node b (lastFrom b t), ⟨b⟩) := by
  have hne : (⟨b⟩ : iterator) ≠ ⟨e⟩ := by
    intro h
    have hbe : b = e := by simpa using h
    exact he (by simp [hbe])
  have h1 := insert_range_eq_link pos ⟨b⟩ ⟨e⟩ s hne
  simp only [hle.2] at h1
  refine Prod.ext h1 ?_
  simp [list.insert_range, hne]

end splice_at

/-! ## The claims -/

/-- C1 (the code differs): on `listA = [1, 2]`, `erase(iterator(one))` leaves
element 1 linked, detaches element 2 instead and returns an iterator to the
detached element 2; `erase(iterator(two))`, at the last member, detaches the
sentinel, so the list becomes empty while elements 1 and 2 stay linked to each
other. -/
theorem erase_detaches_the_successor :
    listA.WellFormed scenario12 [nodeA 1, nodeA 2] ∧
    listA.WellFormed (list.erase (iterator.of_obj 0 1) scenario12).1 [nodeA 1] ∧
    ¬ SelfRef (list.erase (iterator.of_obj 0 1) scenario12).1 (nodeA 1) ∧
    SelfRef (list.erase (iterator.of_obj 0 1) scenario12).1 (nodeA 2) ∧
    (list.erase (iterator.of_obj 0 1) scenario12).2 = iterator.of_obj 0 2 ∧
    listA.WellFormed (list.erase (iterator.of_obj 0 2) scenario12).1 [] ∧
    Linked (list.erase (iterator.of_obj 0 2) scenario12).1 (nodeA 1) (nodeA 2) ∧
    (list.erase (iterator.of_obj 0 2) scenario12).2 = listA.end_ := by
  decide

/-- C2 (the code differs): inserting the only member of `listA = [1]` in front
of itself, `insert(iterator(one), one)`, starts from a ring-consistent state
and ends in a state that is not ring consistent: the sentinel's `next` is
element 1 but element 1's `prev` is element 1 itself. -/
theorem insert_before_itself_breaks_consistency :
    Consistent (listA.push_back 1 Heap.fresh) ∧
    listA.WellFormed (listA.push_back 1 Heap.fresh) [nodeA 1] ∧
    ¬ Consistent (list.insert 0 (iterator.of_obj 0 1) 1 (listA.push_back 1 Heap.fresh)).1 ∧
    ((list.insert 0 (iterator.of_obj 0 1) 1 (listA.push_back 1 Heap.fresh)).1 listA.head).next
      = nodeA 1 ∧
    ((list.insert 0 (iterator.of_obj 0 1) 1 (listA.push_back 1 Heap.fresh)).1 (nodeA 1)).prev
      = nodeA 1 := by
  refine ⟨push_back_consistent consistent_fresh listA 1, by decide, ?_, by decide, by decide⟩
  intro h
  exact absurd (h listA.head) (by decide)

/-- C3: in a ring-consistent state, `insert(pos, obj)` with `pos` a position of
the well-formed list `l` (a member or `end()`) and `obj` not the element at
`pos` leaves `obj.next == pos` and `pos.prev == obj`, makes the contents of `l`
the previous contents without `obj` and with `obj` directly in front of `pos`,
removes `obj` from any other list it was in, and returns an iterator to
`obj`. -/
theorem insert_links_before_position (l : list) (s : Heap) (xs : List Ptr) (pos : iterator)
    (obj : Nat) (hcs : Consistent s) (hw : l.WellFormed s xs)
    (hpos : pos.node ∈ l.head :: xs) (hne : Ptr.field l.role obj ≠ pos.node) :
    ((list.insert l.role pos obj s).1 (Ptr.field l.role obj)).next = pos.node ∧
    ((list.insert l.role pos obj s).1 pos.node).prev = Ptr.field l.role obj ∧
    l.WellFormed (list.insert l.role pos obj s).1
      (placeBefore pos.node [Ptr.field l.role obj] (xs.erase (Ptr.field l.role obj))) ∧
    (∀ fuel, xs.length + 1 < fuel → l.elements (list.insert l.role pos obj s).1 fuel =
      some (placeBefore pos.node [Ptr.field l.role obj] (xs.erase (Ptr.field l.role obj)))) ∧
    (∀ (l2 : list) (zs : List Ptr), l2 ≠ l → l2.WellFormed s zs →
      l2.WellFormed (list.insert l.role pos obj s).1 (zs.erase (Ptr.field l.role obj))) ∧
    (list.insert l.role pos obj s).2 = iterator.of_obj l.role obj := by
  have hl := insert_linked hcs l.role pos obj hne
  have hwf := insert_wf_target hcs hw pos obj hpos hne
  refine ⟨hl.1, hl.2, hwf, ?_, ?_, rfl⟩
  · intro fuel hf
    refine wf_elements hwf fuel ?_
    have h1 := (placeBefore_perm pos.node [Ptr.field l.role obj]
      (xs.erase (Ptr.field l.role obj))).length_eq
    have h2 := List.length_erase_le (Ptr.field l.role obj) xs
    simp at h1
    omega
  · intro l2 zs hne2 hw2
    refine insert_wf_other hcs hw2 l.role pos obj ?_ hne
    exact fun hin => wf_disjoint hw hw2 (Ne.symm hne2) _ hpos hin

/-- Witness for C3: on `listA = [1, 2]`, `insert(iterator(one), two)` gives
`[2, 1]`. -/
theorem insert_links_before_position_witness :
    Consistent scenario12 ∧ listA.WellFormed scenario12 [nodeA 1, nodeA 2] ∧
    (iterator.of_obj 0 1).node ∈ listA.head :: [nodeA 1, nodeA 2] ∧
    Ptr.field listA.role 2 ≠ (iterator.of_obj 0 1).node ∧
    listA.WellFormed (list.insert listA.role (iterator.of_obj 0 1) 2 scenario12).1
      [nodeA 2, nodeA 1] :=
  ⟨consistent_scenario12, by decide, by decide, by decide,
    (insert_links_before_position listA scenario12 [nodeA 1, nodeA 2] (iterator.of_obj 0 1) 2
      consistent_scenario12 (by decide) (by decide) (by decide)).2.2.1⟩

/-- C4: `push_back(obj)` on a well-formed list, with `obj` unlinked or a
member of a well-formed list (another list of the same role, or this list at
any place), makes the contents the previous contents without `obj`, followed
by `obj`; `size()` grows by one when `obj` was not a member and is unchanged
otherwise. -/
theorem push_back_appends (l : list) (s : Heap) (xs : List Ptr) (obj : Nat)
    (hw : l.WellFormed s xs)
    (hobj : SelfRef s (Ptr.field l.role obj) ∨
      ∃ (l2 : list) (zs : List Ptr), l2.WellFormed s zs ∧ Ptr.field l.role obj ∈ zs) :
    l.WellFormed (l.push_back obj s) (xs.erase (Ptr.field l.role obj) ++ [Ptr.field l.role obj]) ∧
    (∀ fuel, xs.length + 1 < fuel → l.elements (l.push_back obj s) fuel =
      some (xs.erase (Ptr.field l.role obj) ++ [Ptr.field l.role obj])) ∧
    (∀ fuel, xs.length + 1 < fuel → l.size s fuel = some xs.length ∧
      l.size (l.push_back obj s) fuel =
        some (if Ptr.field l.role obj ∈ xs then xs.length else xs.length + 1)) := by
  have hcn := consistentAt_of_obj_state (Ptr.field l.role obj) hobj
  have hnh : Ptr.field l.role obj ≠ l.head := (head_ne_field l _ _).symm
  have hwf := insert_wf_target_at l.end_ obj hcn hw (by simp [list.end_]) hnh
  have hh : l.head ∉ xs.erase (Ptr.field l.role obj) :=
    fun e => (List.nodup_cons.1 hw.1).1 (List.mem_of_mem_erase e)
  have hwf' : l.WellFormed (l.push_back obj s)
      (xs.erase (Ptr.field l.role obj) ++ [Ptr.field l.role obj]) := by
    have := placeBefore_not_mem l.head [Ptr.field l.role obj] _ hh
    simp only [list.end_] at hwf
    rw [this] at hwf
    exact hwf
  have hlen : (xs.erase (Ptr.field l.role obj) ++ [Ptr.field l.role obj]).length =
      if Ptr.field l.role obj ∈ xs then xs.length else xs.length + 1 := by
    split
    · rename_i hm
      have := List.length_erase_of_mem hm
      have hpos := List.length_pos_of_mem hm
      simp
      omega
    · rename_i hm
      simp [List.erase_of_not_mem hm]
  refine ⟨hwf', ?_, ?_⟩
  · intro fuel hf
    refine wf_elements hwf' fuel ?_
    rw [hlen]
    split <;> omega
  · intro fuel hf
    refine ⟨wf_size hw fuel (by omega), ?_⟩
    rw [← hlen]
    refine wf_size hwf' fuel ?_
    rw [hlen]
    split <;> omega

/-- Witness for C4: in the state after the test program's inner block, which
is not ring consistent at the destroyed `nodeA` of `four`, `listA = [1]` and
`push_back` of the unlinked element 5 gives `[1, 5]` with size 2. -/
theorem push_back_appends_witness :
    ¬ ConsistentAt scenarioScope (nodeA 4) ∧ listA.WellFormed scenarioScope [nodeA 1] ∧
    SelfRef scenarioScope (Ptr.field listA.role 5) ∧
    listA.WellFormed (listA.push_back 5 scenarioScope) [nodeA 1, nodeA 5] ∧
    listA.size (listA.push_back 5 scenarioScope) 3 = some 2 :=
  ⟨by decide, by decide, by decide,
    (push_back_appends listA scenarioScope [nodeA 1] 5 (by decide) (Or.inl (by decide))).1,
    ((push_back_appends listA scenarioScope [nodeA 1] 5 (by decide) (Or.inl (by decide))).2.2 3
      (by decide)).2⟩

theorem size_loop_stuck (s : Heap) (hd x : Ptr) (hx : (s x).next = x) (hne : x ≠ hd)
    (fuel n : Nat) : list.size_loop s hd fuel x n = none := by
  induction fuel generalizing n with
  | zero => rfl
  | succ f ih => simp [list.size_loop, hne, hx, ih]

/-- C5 (the code differs): on `listA = [1, 2]`, `push_front(one)` with `one`
already the first element leaves element 1 pointing at itself while the
sentinel still points at element 1: the list is not well formed for any
contents and `size()` never leaves its loop. -/
theorem push_front_of_first_corrupts_list :
    Consistent scenario12 ∧ listA.WellFormed scenario12 [nodeA 1, nodeA 2] ∧
    ((listA.push_front 1 scenario12) listA.head).next = nodeA 1 ∧
    ((listA.push_front 1 scenario12) (nodeA 1)).next = nodeA 1 ∧
    (∀ fuel, listA.size (listA.push_front 1 scenario12) fuel = none) ∧
    ¬ ∃ xs, listA.WellFormed (listA.push_front 1 scenario12) xs := by
  have hsz : ∀ fuel, listA.size (listA.push_front 1 scenario12) fuel = none := by
    intro fuel
    have h1 : ((listA.push_front 1 scenario12) listA.head).next = nodeA 1 := by decide
    unfold list.size
    rw [h1]
    exact size_loop_stuck _ _ _ (by decide) (by decide) fuel 0
  refine ⟨consistent_scenario12, by decide, by decide, by decide, hsz, ?_⟩
  rintro ⟨xs, hxs⟩
  have := wf_size hxs (xs.length + 1) (by omega)
  rw [hsz] at this
  exact absurd this (by simp)

/-- C6: moving a member `obj` of the well-formed list `X` into a different
well-formed list `Y` of the same role (by `insert` at any position of `Y`,
`push_back` or `push_front`) leaves `obj` in `Y` exactly once with the other
members of `Y` unchanged, makes the contents of `X` the previous contents
without `obj` (so `size(X)` drops by one), and no list other than `Y`
contains `obj`. -/
theorem insert_moves_between_lists (X Y : list) (s s' : Heap) (xs ys : List Ptr) (obj : Nat)
    (hX : X.WellFormed s xs) (hY : Y.WellFormed s ys) (hne : X ≠ Y)
    (hrole : X.role = Y.role) (hobj : Ptr.field X.role obj ∈ xs)
    (hop : (∃ pos : iterator, pos.node ∈ Y.head :: ys ∧ s' = (list.insert Y.role pos obj s).1) ∨
      s' = Y.push_back obj s ∨ s' = Y.push_front obj s) :
    (∃ ys', Y.WellFormed s' ys' ∧ ys'.count (Ptr.field Y.role obj) = 1 ∧
      ys'.erase (Ptr.field Y.role obj) = ys) ∧
    X.WellFormed s' (xs.erase (Ptr.field X.role obj)) ∧
    (∀ fuel, xs.length < fuel → X.size s fuel = some xs.length ∧
      X.size s' fuel = some (xs.length - 1) ∧ 0 < xs.length) ∧
    (∀ (Z : list) (zs : List Ptr), Z ≠ Y → Z.WellFormed s' zs → Ptr.field Y.role obj ∉ zs) := by
  have hop' : ∃ pos : iterator, pos.node ∈ Y.head :: ys ∧
      s' = (list.insert Y.role pos obj s).1 := by
    rcases hop with h | h | h
    · exact h
    · exact ⟨Y.end_, by simp [list.end_], h⟩
    · exact ⟨Y.begin s, ring_next_mem hY.2.1 Y.head (by simp), h⟩
  obtain ⟨pos, hpos, rfl⟩ := hop'
  rw [hrole] at hobj ⊢
  have hcn : ConsistentAt s (Ptr.field Y.role obj) :=
    wf_consistentAt hX _ (List.mem_cons_of_mem _ hobj)
  have hnY : Ptr.field Y.role obj ∉ Y.head :: ys :=
    wf_disjoint hX hY hne _ (List.mem_cons_of_mem _ hobj)
  have hnys : Ptr.field Y.role obj ∉ ys := fun e => hnY (List.mem_cons_of_mem _ e)
  have hnp : Ptr.field Y.role obj ≠ pos.node := fun e => hnY (e ▸ hpos)
  have hwY := insert_wf_target_at pos obj hcn hY hpos hnp
  rw [List.erase_of_not_mem hnys] at hwY
  have hwX := insert_wf_other_at Y.role pos obj hcn hX hY hpos
    (fun hin => wf_disjoint hX hY hne _ hin hpos) hnp
  refine ⟨⟨_, hwY, ?_, placeBefore_erase _ _ _ hnys⟩, hwX, ?_, ?_⟩
  · rw [(placeBefore_perm pos.node [Ptr.field Y.role obj] ys).count_eq]
    simp [List.count_eq_zero_of_not_mem hnys]
  · intro fuel hf
    have hlen := List.length_erase_of_mem hobj
    have hpos' := List.length_pos_of_mem hobj
    refine ⟨wf_size hX fuel hf, ?_, hpos'⟩
    rw [← hlen]
    exact wf_size hwX fuel (by omega)
  · intro Z zs hZ hwZ hin
    refine wf_disjoint hwY hwZ (Ne.symm hZ) (Ptr.field Y.role obj) ?_ (List.mem_cons_of_mem _ hin)
    apply List.mem_cons_of_mem
    rw [(placeBefore_perm pos.node [Ptr.field Y.role obj] ys).mem_iff]
    simp

/-- Witness for C6: in the state after the test program's inner block (not
ring consistent at the destroyed nodes), `list1.push_back(one)` with
`listA = [1]` empties `listA`. -/
theorem insert_moves_between_lists_witness :
    listA.WellFormed scenarioScope [nodeA 1] ∧ list1.WellFormed scenarioScope [] ∧
    listA ≠ list1 ∧ listA.role = list1.role ∧ Ptr.field listA.role 1 ∈ [nodeA 1] ∧
    listA.WellFormed (list1.push_back 1 scenarioScope) [] :=
  ⟨by decide, by decide, by decide, rfl, by decide,
    (insert_moves_between_lists listA list1 scenarioScope (list1.push_back 1 scenarioScope)
      [nodeA 1] [] 1 (by decide) (by decide) (by decide) rfl (by decide)
      (Or.inr (Or.inl rfl))).2.1⟩

/-- C7 as stated fails when source and destination are the same list: on
`listA = [1, 2]`, splicing the run `[1]` in front of `end()` gives `[2, 1]`,
so the run is in front of the position but the list still contains it. -/
theorem splice_within_one_list_keeps_run :
    listA.WellFormed scenario12 [nodeA 1, nodeA 2] ∧
    listA.WellFormed
      (list.insert_range listA.end_ (iterator.of_obj 0 1) (iterator.of_obj 0 2) scenario12).1
      [nodeA 2, nodeA 1] ∧
    ¬ ∀ xs', listA.WellFormed
      (list.insert_range listA.end_ (iterator.of_obj 0 1) (iterator.of_obj 0 2) scenario12).1
      xs' → nodeA 1 ∉ xs' := by
  refine ⟨by decide, by decide, ?_⟩
  intro h
  exact h [nodeA 2, nodeA 1] (by decide) (by decide)

/-- C7 (amended): let `b :: t` be a non-empty contiguous run of the
well-formed list `X`, `e` the node that follows it, and `pos` a position of
the well-formed list `Y` of the same role outside the run.  Then
`insert(pos, b, e)` returns `b`; when `X` and `Y` are different lists, `X`
keeps its other members in order and loses the run, `Y` gets the run in its
original order directly in front of `pos` with its other members in order,
and the sizes change by the length of the run; when `X` and `Y` are the same
list, its contents are the other members in order with the run directly in
front of `pos`. -/
theorem splice_postcondition (X Y : list) (s : Heap) (l1 t l2 ys : List Ptr) (b : Ptr)
    (pos e : iterator) (hX : X.WellFormed s (l1 ++ b :: t ++ l2))
    (he : (l2 ++ [X.head]).head? = some e.node) (hY : Y.WellFormed s ys)
    (hrole : X.role = Y.role) (hpos : pos.node ∈ Y.head :: ys) (hout : pos.node ∉ b :: t) :
    (list.insert_range pos ⟨b⟩ e s).2 = ⟨b⟩ ∧
    (X ≠ Y →
      X.WellFormed (list.insert_range pos ⟨b⟩ e s).1 (l1 ++ l2) ∧
      Y.WellFormed (list.insert_range pos ⟨b⟩ e s).1 (placeBefore pos.node (b :: t) ys) ∧
      ∀ fuel, l1.length + (t.length + 1) + l2.length + ys.length < fuel →
        X.size s fuel = some (l1.length + (t.length + 1) + l2.length) ∧
        X.size (list.insert_range pos ⟨b⟩ e s).1 fuel = some (l1.length + l2.length) ∧
        Y.size s fuel = some ys.length ∧
        Y.size (list.insert_range pos ⟨b⟩ e s).1 fuel = some (ys.length + (t.length + 1))) ∧
    (X = Y →
      X.WellFormed (list.insert_range pos ⟨b⟩ e s).1
        (placeBefore pos.node (b :: t) (l1 ++ l2))) := by
  obtain ⟨r, her⟩ : ∃ r, l2 ++ [X.head] = e.node :: r := by
    cases h : l2 ++ [X.head] with
    | nil => simp at h
    | cons y ys' =>
      rw [h] at he
      simp at he
      exact ⟨ys', by rw [he]⟩
  obtain ⟨hrun, hX1, hle, hnd, he', _⟩ := bridge_ring_at hX her
  have hst : list.insert_range pos ⟨b⟩ e s =
      ((s.bridge (s b).prev e.node).link_before pos.node b (lastFrom b t), ⟨b⟩) :=
    insert_range_state_at hle he' pos
  rw [hst]
  have hdisX : ∀ x ∈ X.head :: (l1 ++ l2), x ∉ b :: t := rest_not_mem_run hX
  refine ⟨rfl, ?_, ?_⟩
  · intro hne
    have hY1 := bridge_wf_other_at hX her hY hne
    have hdisY : ∀ x ∈ Y.head :: ys, x ∉ b :: t :=
      fun z hz hzr => wf_disjoint hX hY hne z (run_mem_source z hzr) hz
    have hty : ∀ x ∈ b :: t, (list.to_object Y.role x).isSome = true := by
      intro x hx
      rw [← hrole]
      apply hX.2.2
      rw [List.append_assoc]
      exact List.mem_append_right _ (List.mem_append_left _ hx)
    have hd := dock_of_wf hnd hrun hY1 hdisY hpos
    have hXf := wf_dock_frame hd hX1 hdisX
      (fun hin => wf_disjoint hX hY hne _ (rest_mem_source _ hin) hpos)
    have hYf := wf_dock hnd hrun hY1 hdisY hpos hty
    refine ⟨hXf, hYf, ?_⟩
    intro fuel hf
    have hlenY : (placeBefore pos.node (b :: t) ys).length = ys.length + (t.length + 1) := by
      rw [(placeBefore_perm pos.node (b :: t) ys).length_eq]
      simp
      omega
    refine ⟨?_, ?_, wf_size hY fuel (by omega), ?_⟩
    · have hlenX : (l1 ++ b :: t ++ l2).length = l1.length + (t.length + 1) + l2.length := by
        simp
        omega
      rw [← hlenX]
      exact wf_size hX fuel (by rw [hlenX]; omega)
    · have := wf_size hXf fuel (by simp; omega)
      simpa using this
    · rw [← hlenY]
      exact wf_size hYf fuel (by rw [hlenY]; omega)
  · intro heq
    subst heq
    have hys := wf_unique hY hX
    subst hys
    have hp : pos.node ∈ X.head :: (l1 ++ l2) := by
      rcases List.mem_cons.1 hpos with e1 | e1
      · simp [e1]
      · apply List.mem_cons_of_mem
        rw [List.append_assoc] at e1
        rcases List.mem_append.1 e1 with e2 | e2
        · exact List.mem_append_left _ e2
        · rcases List.mem_append.1 e2 with e3 | e3
          · exact absurd e3 hout
          · exact List.mem_append_right _ e3
    have hty : ∀ x ∈ b :: t, (list.to_object X.role x).isSome = true := by
      intro x hx
      apply hX.2.2
      rw [List.append_assoc]
      exact List.mem_append_right _ (List.mem_append_left _ hx)
    exact wf_dock hnd hrun hX1 hdisX hp hty

/-- Witness for C7: in the state after the test program's inner block (not
ring consistent at the destroyed nodes), splicing all of `listB = [1, 2]` to
the end of the empty `listB2` empties `listB` and makes `listB2 = [1, 2]`. -/
theorem splice_postcondition_witness :
    listB.WellFormed scenarioScope ([] ++ nodeB 1 :: [nodeB 2] ++ []) ∧
    listB2.WellFormed scenarioScope [] ∧ listB ≠ listB2 ∧
    listB.WellFormed (list.insert_range listB2.end_ ⟨nodeB 1⟩ listB.end_ scenarioScope).1 [] ∧
    listB2.WellFormed (list.insert_range listB2.end_ ⟨nodeB 1⟩ listB.end_ scenarioScope).1
      [nodeB 1, nodeB 2] :=
  ⟨by decide, by decide, by decide,
    ((splice_postcondition listB listB2 scenarioScope [] [nodeB 2] [] [] (nodeB 1) listB2.end_
      listB.end_ (by decide) (by decide) (by decide) rfl (by decide)
      (by decide)).2.1 (by decide)).1,
    ((splice_postcondition listB listB2 scenarioScope [] [nodeB 2] [] [] (nodeB 1) listB2.end_
      listB.end_ (by decide) (by decide) (by decide) rfl (by decide)
      (by decide)).2.1 (by decide)).2.1⟩

/-- C8: splicing an empty range, `insert(P, b, b)`, changes no field of any
link field and returns `P`; in particular this is what splicing
`begin()..end()` of an empty list does. -/
theorem insert_range_empty_is_noop (s : Heap) (pos b : iterator) :
    list.insert_range pos b b s = (s, pos) ∧
    ∀ l : list, l.empty s = true → list.insert_range pos (l.begin s) l.end_ s = (s, pos) := by
  refine ⟨by simp [list.insert_range], ?_⟩
  intro l hl
  have hb : l.begin s = l.end_ := by
    simpa [list.empty, list.begin, list.end_] using hl
  simp [list.insert_range, hb]

/-- Witness for C8: the test program's second splice of the already empty
source list, here with the empty `listA2` as source and `listA` as
destination. -/
theorem insert_range_empty_is_noop_witness :
    listA2.empty scenario12 = true ∧
    list.insert_range (listA.begin scenario12) (listA2.begin scenario12) listA2.end_ scenario12
      = (scenario12, listA.begin scenario12) :=
  ⟨by decide, (insert_range_empty_is_noop scenario12 (listA.begin scenario12)
    (listA2.begin scenario12)).2 listA2 (by decide)⟩

/-- C9: in a ring-consistent state, running the destructor of a link field
that is a member of a well-formed list removes it from that list: the contents
are the previous contents without it, `size()` drops by one, its former
neighbours are linked to each other, every remaining link field is ring
consistent, and every other list (in particular the lists of the object's
other roles) keeps its contents; when links stay within their role, running
the destructors of the link fields of two roles one after the other removes
each from its own list. -/
theorem destructor_unlinks_member (l : list) (s : Heap) (xs : List Ptr) (n : Ptr)
    (hcs : Consistent s) (hw : l.WellFormed s xs) (hn : n ∈ xs) :
    l.WellFormed ( listnode.destructor n s) (xs.erase n) ∧
    (∀ fuel, xs.length < fuel → l.size s fuel = some xs.length ∧
      l.size ( listnode.destructor n s) fuel = some (xs.length - 1) ∧ 0 < xs.length) ∧
    Linked ( listnode.destructor n s) (s n).prev (s n).next ∧
    (∀ m, m ≠ n → ConsistentAt ( listnode.destructor n s) m) ∧
    (∀ (l2 : list) (zs : List Ptr), l2 ≠ l → l2.WellFormed s zs →
      l2.WellFormed ( listnode.destructor n s) zs) ∧
    (∀ (l2 : list) (zs : List Ptr) (n2 : Ptr), RoleClosed s → l2.role ≠ l.role →
      l2.WellFormed s zs → n2 ∈ zs →
      l.WellFormed ( listnode.destructor n ( listnode.destructor n2 s)) (xs.erase n) ∧
      l2.WellFormed ( listnode.destructor n ( listnode.destructor n2 s)) (zs.erase n2)) := by
  have hnh : n ≠ l.head := fun e => (List.nodup_cons.1 hw.1).1 (e ▸ hn)
  have hwf := wf_partial_erase hcs hw n hnh
  refine ⟨hwf, ?_, ?_, ?_, ?_, ?_⟩
  · intro fuel hf
    have hlen := List.length_erase_of_mem hn
    refine ⟨wf_size hw fuel hf, ?_, List.length_pos_of_mem hn⟩
    rw [← hlen]
    exact wf_size hwf fuel (by omega)
  · unfold listnode.destructor
    rw [erase_partial_eq_bridge]
    exact bridge_linked s _ _
  · intro m hm
    exact (erase_partial_floating hcs n).consistent m (by simpa using hm)
  · intro l2 zs hne hw2
    have hnot : n ∉ l2.head :: zs :=
      wf_disjoint hw hw2 (Ne.symm hne) n (List.mem_cons_of_mem _ hn)
    have := wf_partial_erase hcs hw2 n (fun e => hnot (by simp [e]))
    rw [List.erase_of_not_mem (fun e => hnot (List.mem_cons_of_mem _ e))] at this
    exact this
  · intro l2 zs n2 hrc hrl hw2 hn2
    have hr2 : n2.role = l2.role := to_object_role (hw2.2.2 n2 hn2)
    have hr : n.role = l.role := to_object_role (hw.2.2 n hn)
    have hf2 : RoleFrame l2.role s ( listnode.erase_partial n2 s) :=
      roleFrame_partial_erase (roleFrame_refl hrc) n2 hr2
    have hf : RoleFrame l.role ( listnode.erase_partial n2 s)
        ( listnode.erase_partial n ( listnode.erase_partial n2 s)) :=
      roleFrame_partial_erase (roleFrame_refl hf2.1) n hr
    constructor
    · refine wf_congr_role ?_ hwf
      exact erase_partial_agree (fun q hq => hf2.2 q (by rw [hq]; exact Ne.symm hrl)) n hr
    · have hnh2 : n2 ≠ l2.head := fun e => (List.nodup_cons.1 hw2.1).1 (e ▸ hn2)
      refine wf_congr_role ?_ (wf_partial_erase hcs hw2 n2 hnh2)
      exact fun q hq => hf.2 q (by rw [hq]; exact hrl)

/-- Witness for C9: destroying `nodeA` of element 2 while `listA = [1, 2]` and
`listB = [1, 2]` leaves `listA = [1]` and `listB = [1, 2]`; destroying `nodeB`
and then `nodeA` of element 2 also leaves `listB = [1]`. -/
theorem destructor_unlinks_member_witness :
    Consistent scenario12 ∧ listA.WellFormed scenario12 [nodeA 1, nodeA 2] ∧
    nodeA 2 ∈ [nodeA 1, nodeA 2] ∧
    listA.WellFormed ( listnode.destructor (nodeA 2) scenario12) [nodeA 1] ∧
    listB.WellFormed ( listnode.destructor (nodeA 2) scenario12) [nodeB 1, nodeB 2] ∧
    listB.WellFormed ( listnode.destructor (nodeA 2) ( listnode.destructor (nodeB 2) scenario12))
      [nodeB 1] :=
  ⟨consistent_scenario12, by decide, by decide,
    (destructor_unlinks_member listA scenario12 [nodeA 1, nodeA 2] (nodeA 2)
      consistent_scenario12 (by decide) (by decide)).1,
    (destructor_unlinks_member listA scenario12 [nodeA 1, nodeA 2] (nodeA 2)
      consistent_scenario12 (by decide) (by decide)).2.2.2.2.1 listB [nodeB 1, nodeB 2]
      (by decide) (by decide),
    ((destructor_unlinks_member listA scenario12 [nodeA 1, nodeA 2] (nodeA 2)
      consistent_scenario12 (by decide) (by decide)).2.2.2.2.2 listB [nodeB 1, nodeB 2]
      (nodeB 2) roleClosed_scenario12 (by decide) (by decide) (by decide)).2⟩

/-- C10: in a state where links stay within their role, every operation made
through a list view of role `A` (`push_back`, `push_front`, `insert`, the
splice `insert(pos, b, e)`, `erase`, `pop_front`, `pop_back`, `clear`) leaves
`prev` and `next` of every link field of another role unchanged, so for every
list of another role the iteration from `begin()` to `end()` and `size()`
give exactly what they gave before; links still stay within their role
afterwards. -/
theorem role_independence (A : Nat) (l : list) (s s' : Heap) (pos b e : iterator) (obj : Nat)
    (hrc : RoleClosed s) (hl : l.role = A) (hpos : pos.node.role = A)
    (hb : b.node.role = A) (he : e.node.role = A)
    (hop : s' = l.push_back obj s ∨ s' = l.push_front obj s ∨
      s' = (list.insert A pos obj s).1 ∨ s' = (list.insert_range pos b e s).1 ∨
      s' = (list.erase pos s).1 ∨ s' = l.pop_front s ∨ s' = l.pop_back s ∨ s' = l.clear s) :
    (∀ q : Ptr, q.role ≠ A → (s' q).prev = (s q).prev ∧ (s' q).next = (s q).next) ∧
    (∀ lB : list, lB.role ≠ A → ∀ fuel,
      lB.elements s' fuel = lB.elements s fuel ∧ lB.size s' fuel = lB.size s fuel) ∧
    RoleClosed s' := by
  have h0 : RoleFrame A s s := roleFrame_refl hrc
  have hh : l.head.role = A := hl
  have key : RoleFrame A s s' := by
    rcases hop with h | h | h | h | h | h | h | h <;> subst h
    · unfold list.push_back
      rw [hl]
      exact roleFrame_insert h0 l.end_ obj hh
    · unfold list.push_front
      rw [hl]
      exact roleFrame_insert h0 (l.begin s) obj (roleFrame_next h0 _ hh)
    · exact roleFrame_insert h0 pos obj hpos
    · exact roleFrame_insert_range h0 pos b e hpos hb he
    · exact roleFrame_erase h0 _ (roleFrame_next h0 _ hpos)
    · exact roleFrame_erase h0 _ (roleFrame_next h0 _ hh)
    · exact roleFrame_erase h0 _ (roleFrame_prev h0 _ hh)
    · exact roleFrame_erase h0 _ hh
  refine ⟨fun q hq => by rw [key.2 q hq]; exact ⟨rfl, rfl⟩, ?_, key.1⟩
  intro lB hB fuel
  have hhB : lB.head.role ≠ A := hB
  have hnx : ((s lB.head).next).role ≠ A := by rw [(hrc lB.head).1]; exact hhB
  unfold list.elements list.size
  rw [key.2 _ hhB]
  exact ⟨walk_role_congr hrc key.2 _ fuel _ hnx, size_loop_role_congr hrc key.2 _ fuel _ 0 hnx⟩

/-- Witness for C10: the test program's `listA2.push_back(two)` (role
`nodeA`) leaves `listB` (role `nodeB`) at `[1, 2]`. -/
theorem role_independence_witness :
    RoleClosed scenario12 ∧ listA2.role = 0 ∧ listB.role ≠ 0 ∧
    listB.elements (listA2.push_back 2 scenario12) 5 = listB.elements scenario12 5 ∧
    listB.elements scenario12 5 = some [nodeB 1, nodeB 2] :=
  ⟨roleClosed_scenario12, rfl, by decide,
    ((role_independence 0 listA2 scenario12 (listA2.push_back 2 scenario12) listA2.end_
      listA2.end_ listA2.end_ 2 roleClosed_scenario12 rfl rfl rfl rfl (Or.inl rfl)).2.1 listB
      (by decide) 5).1, by decide⟩

/-- C11: `clear()` on a well-formed list leaves the sentinel self-referential,
so `empty()` is true, `size()` is 0 and the list is well formed with no
contents; besides the sentinel only the `next` of its former predecessor (the
last member) and the `prev` of its former successor (the first member) are
written, so every member strictly between them keeps both fields. -/
theorem clear_empties_list (l : list) (s : Heap) (xs : List Ptr) (hw : l.WellFormed s xs) :
    SelfRef (l.clear s) l.head ∧ l.empty (l.clear s) = true ∧
    (∀ fuel, 0 < fuel → l.size (l.clear s) fuel = some 0) ∧
    l.WellFormed (l.clear s) [] ∧
    (xs ++ [l.head]).head? = some (s l.head).next ∧ (s l.head).prev = lastFrom l.head xs ∧
    (∀ q, q ≠ l.head →
      (q ≠ (s l.head).prev → ((l.clear s) q).next = (s q).next) ∧
      (q ≠ (s l.head).next → ((l.clear s) q).prev = (s q).prev)) ∧
    (∀ x ∈ xs, x ≠ (s l.head).next → x ≠ (s l.head).prev → (l.clear s) x = s x) := by
  have hself : SelfRef (l.clear s) l.head := erase_selfRef l.head s
  have hfr : ∀ q, q ≠ l.head →
      (q ≠ (s l.head).prev → ((l.clear s) q).next = (s q).next) ∧
      (q ≠ (s l.head).next → ((l.clear s) q).prev = (s q).prev) := by
    intro q hq
    constructor
    · intro h1
      unfold list.clear
      rw [erase_next]; simp [hq, h1]
    · intro h1
      unfold list.clear
      rw [erase_prev]; simp [hq, h1]
  refine ⟨hself, (selfRef_empty hself).2.1, (selfRef_empty hself).2.2, (selfRef_empty hself).1,
    ?_, wf_last hw, hfr, ?_⟩
  · cases xs with
    | nil =>
      have hc := hw.2.1
      have h1 : Linked s l.head l.head := by simpa using hc
      simp [h1.1]
    | cons a t => simp [wf_first hw]
  · intro x hx h1 h2
    have hxh : x ≠ l.head := fun e => (List.nodup_cons.1 hw.1).1 (e ▸ hx)
    exact listnode_ext ((hfr x hxh).2 h1) ((hfr x hxh).1 h2)

/-- Witness for C11: `listA.clear()` on `listA = [1, 2]`. -/
theorem clear_empties_list_witness :
    listA.WellFormed scenario12 [nodeA 1, nodeA 2] ∧
    listA.WellFormed (listA.clear scenario12) [] ∧ listA.size (listA.clear scenario12) 1 = some 0 :=
  ⟨by decide,
    (clear_empties_list listA scenario12 [nodeA 1, nodeA 2] (by decide)).2.2.2.1,
    (clear_empties_list listA scenario12 [nodeA 1, nodeA 2] (by decide)).2.2.1 1 (by decide)⟩

/-- C12 as stated fails with two members: after `listA.clear()` on
`listA = [1, 2]` neither element is self-referential; the two stay linked to
each other. -/
theorem clear_leaves_members_linked :
    listA.WellFormed scenario12 [nodeA 1, nodeA 2] ∧
    ¬ SelfRef (listA.clear scenario12) (nodeA 1) ∧
    ¬ SelfRef (listA.clear scenario12) (nodeA 2) ∧
    Linked (listA.clear scenario12) (nodeA 1) (nodeA 2) ∧
    Linked (listA.clear scenario12) (nodeA 2) (nodeA 1) := by
  decide

/-- C12 (amended): after `clear()` on a well-formed list the former members
keep their links to one another and the former last member is linked to the
former first, a ring without the sentinel; a former member is self-referential
exactly when it was the only member. -/
theorem clear_links_members_in_ring (l : list) (s : Heap) (a : Ptr) (t : List Ptr)
    (hw : l.WellFormed s (a :: t)) :
    List.Chain (Linked (l.clear s)) a t ∧ Linked (l.clear s) (lastFrom a t) a ∧
    (t = [] → SelfRef (l.clear s) a) ∧
    (t ≠ [] → ∀ m ∈ a :: t, ¬ SelfRef (l.clear s) m) :=
  ⟨(erase_head_members hw).1, (erase_head_members hw).2, (erase_head_selfRef hw).1,
    (erase_head_selfRef hw).2⟩

/-- Witness for C12 (amended): `listA.clear()` on `listA = [1, 2]`. -/
theorem clear_links_members_in_ring_witness :
    listA.WellFormed scenario12 (nodeA 1 :: [nodeA 2]) ∧
    Linked (listA.clear scenario12) (nodeA 2) (nodeA 1) :=
  ⟨by decide, (clear_links_members_in_ring listA scenario12 (nodeA 1) [nodeA 2] (by decide)).2.1⟩

/-- C14: in a ring-consistent state, after `n.erase()` the field `n` is
self-referential and its former neighbours are linked to each other; `erase()`
on a self-referential field changes nothing; `erase()` twice gives the same
state as `erase()` once. -/
theorem erase_is_idempotent (s : Heap) (n : Ptr) (hcs : Consistent s) :
    SelfRef ( listnode.erase n s) n ∧
    Linked ( listnode.erase n s) (s n).prev (s n).next ∧
    (SelfRef s n → listnode.erase n s = s) ∧
    listnode.erase n ( listnode.erase n s) = listnode.erase n s := by
  refine ⟨erase_selfRef n s, ?_, erase_of_selfRef n s,
    erase_of_selfRef n _ (erase_selfRef n s)⟩
  by_cases hP : (s n).prev = n
  · have hN : (s n).next = n := by
      have := (hcs n).1
      rw [hP] at this
      exact this
    rw [hP, hN]
    exact ⟨(erase_selfRef n s).2, (erase_selfRef n s).1⟩
  · have hN : (s n).next ≠ n := by
      intro e
      apply hP
      have := (hcs n).2
      rw [e] at this
      exact this
    exact erase_closes n hP hN

/-- Witness for C14: erasing `nodeA` of element 1 in the state with
`listA = [1, 2]`. -/
theorem erase_is_idempotent_witness :
    Consistent scenario12 ∧ SelfRef ( listnode.erase (nodeA 1) scenario12) (nodeA 1) ∧
    Linked ( listnode.erase (nodeA 1) scenario12) listA.head (nodeA 2) :=
  ⟨consistent_scenario12, (erase_is_idempotent scenario12 (nodeA 1) consistent_scenario12).1,
    (erase_is_idempotent scenario12 (nodeA 1) consistent_scenario12).2.1⟩

/-- C15: on a well-formed non-empty list `pop_front()` leaves the contents
without their first element and `pop_back()` leaves the contents without their
last element; the removed element's link field is self-referential and
`size()` drops by one. -/
theorem pop_removes_end_member (l : list) (s : Heap) (a : Ptr) (t : List Ptr)
    (hw : l.WellFormed s (a :: t)) :
    l.WellFormed (l.pop_front s) t ∧ SelfRef (l.pop_front s) a ∧
    l.WellFormed (l.pop_back s) (a :: t).dropLast ∧
    (a :: t).getLast? = some (lastFrom a t) ∧ SelfRef (l.pop_back s) (lastFrom a t) ∧
    (∀ fuel, t.length + 1 < fuel → l.size s fuel = some (t.length + 1) ∧
      l.size (l.pop_front s) fuel = some t.length ∧
      l.size (l.pop_back s) fuel = some t.length) := by
  have hnd : (a :: t).Nodup := (List.nodup_cons.1 hw.1).2
  have hf : l.pop_front s = listnode.erase a s := by
    unfold list.pop_front; rw [wf_first hw]
  have hb : l.pop_back s = listnode.erase (lastFrom a t) s := by
    unfold list.pop_back; rw [wf_last hw]; rfl
  have hwf : l.WellFormed (l.pop_front s) t := by
    have := wf_erase_member hw a (by simp)
    rw [hf]
    simpa using this
  have hwb : l.WellFormed (l.pop_back s) (a :: t).dropLast := by
    have := wf_erase_member hw (lastFrom a t) (lastFrom_mem a t)
    rw [hb, ← erase_lastFrom a t hnd]
    exact this
  refine ⟨hwf, ?_, hwb, lastFrom_eq_getLast? a t, ?_, ?_⟩
  · rw [hf]; exact erase_selfRef a s
  · rw [hb]; exact erase_selfRef _ s
  · intro fuel hfu
    refine ⟨wf_size hw fuel (by simpa using hfu), wf_size hwf fuel (by omega), ?_⟩
    have := wf_size hwb fuel (by simp; omega)
    simpa using this

/-- Witness for C15: `pop_front()` and `pop_back()` on `listA = [1, 2]`. -/
theorem pop_removes_end_member_witness :
    listA.WellFormed scenario12 (nodeA 1 :: [nodeA 2]) ∧
    listA.WellFormed (listA.pop_front scenario12) [nodeA 2] ∧
    listA.WellFormed (listA.pop_back scenario12) [nodeA 1] :=
  ⟨by decide, (pop_removes_end_member listA scenario12 (nodeA 1) [nodeA 2] (by decide)).1,
    (pop_removes_end_member listA scenario12 (nodeA 1) [nodeA 2] (by decide)).2.2.1⟩

/-- C16: in a ring-consistent state `head.next == head` holds exactly when
`head.prev == head` holds, and `empty()` returns true exactly when `size()`
returns 0. -/
theorem empty_iff_size_zero (l : list) (s : Heap) (hcs : Consistent s) :
    ((s l.head).next = l.head ↔ (s l.head).prev = l.head) ∧
    (∀ fuel, 0 < fuel → (l.empty s = true ↔ l.size s fuel = some 0)) := by
  constructor
  · constructor
    · intro h
      have := (hcs l.head).2
      rw [h] at this
      exact this
    · intro h
      have := (hcs l.head).1
      rw [h] at this
      exact this
  · intro fuel hf
    cases fuel with
    | zero => simp at hf
    | succ f =>
      by_cases he : (s l.head).next = l.head
      · simp [list.empty, list.size, list.size_loop, he]
      · simp only [list.empty, list.size, list.size_loop, he, decide_False, if_false]
        constructor
        · intro h; simp at h
        · intro h
          have := size_loop_ge _ _ _ _ _ _ h
          omega

/-- Witness for C16: the empty `listA2` and the non-empty `listA`. -/
theorem empty_iff_size_zero_witness :
    Consistent scenario12 ∧
    (listA2.empty scenario12 = true ↔ listA2.size scenario12 3 = some 0) ∧
    listA2.empty scenario12 = true ∧ listA.empty scenario12 = false :=
  ⟨consistent_scenario12,
    (empty_iff_size_zero listA2 scenario12 consistent_scenario12).2 3 (by decide),
    by decide, by decide⟩

/-- C19: on a well-formed non-empty list `head.next` is the first and
`head.prev` the last node of the sequence visited from `begin()` to `end()`,
`front()` and `back()` are the objects of these two nodes, and walking `prev`
from the sentinel back to the sentinel visits the reversed sequence. -/
theorem sentinel_anchors_both_ends (l : list) (s : Heap) (a : Ptr) (t : List Ptr)
    (hw : l.WellFormed s (a :: t)) :
    (∀ fuel, t.length + 1 < fuel → l.elements s fuel = some (a :: t) ∧
      list.walk_back s l.head fuel (s l.head).prev = some (a :: t).reverse) ∧
    (s l.head).next = a ∧ (s l.head).prev = lastFrom a t ∧
    (a :: t).getLast? = some (lastFrom a t) ∧
    l.front s = list.to_object l.role a ∧ (l.front s).isSome = true ∧
    l.back s = list.to_object l.role (lastFrom a t) ∧ (l.back s).isSome = true := by
  have hfirst := wf_first hw
  have hlast : (s l.head).prev = lastFrom a t := wf_last hw
  refine ⟨?_, hfirst, hlast, lastFrom_eq_getLast? a t, ?_, ?_, ?_, ?_⟩
  · intro fuel hf
    refine ⟨wf_elements hw fuel (by simpa using hf), ?_⟩
    refine walk_back_of_chain s l.head (a :: t).reverse l.head fuel (wf_prev_chain hw) ?_ ?_
    · intro hin
      exact (List.nodup_cons.1 hw.1).1 (List.mem_reverse.1 hin)
    · simpa using hf
  · unfold list.front; rw [hfirst]
  · unfold list.front; rw [hfirst]; exact hw.2.2 a (by simp)
  · unfold list.back; rw [hlast]
  · unfold list.back; rw [hlast]; exact hw.2.2 _ (lastFrom_mem a t)

/-- Witness for C19: `listA = [1, 2]` has `front()` element 1 and `back()`
element 2. -/
theorem sentinel_anchors_both_ends_witness :
    listA.WellFormed scenario12 (nodeA 1 :: [nodeA 2]) ∧
    listA.front scenario12 = some 1 ∧ listA.back scenario12 = some 2 ∧
    list.walk_back scenario12 listA.head 3 (scenario12 listA.head).prev
      = some [nodeA 2, nodeA 1] :=
  ⟨by decide,
    (sentinel_anchors_both_ends listA scenario12 (nodeA 1) [nodeA 2] (by decide)).2.2.2.2.1,
    (sentinel_anchors_both_ends listA scenario12 (nodeA 1) [nodeA 2] (by decide)).2.2.2.2.2.2.1,
    ((sentinel_anchors_both_ends listA scenario12 (nodeA 1) [nodeA 2] (by decide)).1 3
      (by decide)).2⟩

/-- C20 as stated fails on a list with one member: `erase(iterator(one))` on
`listA = [1]` detaches the sentinel, the list is empty and element 1 does not
stay linked: its link field is self-referential. -/
theorem erase_of_sole_member_unlinks_it :
    listA.WellFormed (listA.push_back 1 Heap.fresh) [nodeA 1] ∧
    (list.erase (iterator.of_obj 0 1) (listA.push_back 1 Heap.fresh)).2 = listA.end_ ∧
    listA.WellFormed (list.erase (iterator.of_obj 0 1) (listA.push_back 1 Heap.fresh)).1 [] ∧
    SelfRef (list.erase (iterator.of_obj 0 1) (listA.push_back 1 Heap.fresh)).1 (nodeA 1) := by
  decide

/-- C20 (amended): on a well-formed list, `erase(p)` at a member `p` detaches
the link field that follows `p` and returns an iterator to that detached
field, never `p` itself.  When `p` is not the last member, the list keeps `p`
and loses the member after it.  When `p` is the last member, the detached
field is the sentinel: `empty()` is true, `size()` is 0, and the former
members keep their links to one another, the last now linked to the first;
with two or more former members none is self-referential, a sole former
member is. -/
theorem erase_unlinks_what_follows (l : list) (s : Heap) (l1 l2 : List Ptr) (p : Ptr)
    (hw : l.WellFormed s (l1 ++ p :: l2)) :
    (list.erase ⟨p⟩ s).2 = ⟨(s p).next⟩ ∧
    (list.erase ⟨p⟩ s).1 = listnode.erase (s p).next s ∧
    (l2 ++ [l.head]).head? = some (s p).next ∧ (s p).next ≠ p ∧
    SelfRef (list.erase ⟨p⟩ s).1 (s p).next ∧
    (∀ c r, l2 = c :: r →
      (list.erase ⟨p⟩ s).2 = ⟨c⟩ ∧ l.WellFormed (list.erase ⟨p⟩ s).1 (l1 ++ p :: r) ∧
      ∀ fuel, (l1 ++ p :: l2).length < fuel →
        l.size s fuel = some (l1 ++ p :: l2).length ∧
        l.size (list.erase ⟨p⟩ s).1 fuel = some ((l1 ++ p :: l2).length - 1)) ∧
    (l2 = [] →
      (list.erase ⟨p⟩ s).2 = l.end_ ∧ (list.erase ⟨p⟩ s).1 = l.clear s ∧
      l.empty (list.erase ⟨p⟩ s).1 = true ∧
      (∀ fuel, 0 < fuel → l.size (list.erase ⟨p⟩ s).1 fuel = some 0) ∧
      ∀ a t, l1 ++ [p] = a :: t →
        List.Chain (Linked (list.erase ⟨p⟩ s).1) a t ∧ lastFrom a t = p ∧
        Linked (list.erase ⟨p⟩ s).1 p a ∧
        (t = [] → SelfRef (list.erase ⟨p⟩ s).1 p) ∧
        (t ≠ [] → ∀ m ∈ a :: t, ¬ SelfRef (list.erase ⟨p⟩ s).1 m)) := by
  have hnd := hw.1
  have hpm : p ∈ l1 ++ p :: l2 := by simp
  have hph : p ≠ l.head := fun e => (List.nodup_cons.1 hnd).1 (e ▸ hpm)
  have hc : List.Chain (Linked s) l.head (l1 ++ (p :: (l2 ++ [l.head]))) := by
    simpa using hw.2.1
  rw [chain_append_iff, List.chain_cons] at hc
  obtain ⟨_, _, hcp⟩ := hc
  have hnext : (l2 ++ [l.head]).head? = some (s p).next := by
    cases l2 with
    | nil =>
      have h1 : Linked s p l.head := by simpa using hcp
      simp [h1.1]
    | cons c r =>
      simp only [List.cons_append, List.chain_cons] at hcp
      simp [hcp.1.1]
  have hne : (s p).next ≠ p := by
    intro e
    rw [e] at hnext
    cases l2 with
    | nil => simp at hnext; exact hph hnext.symm
    | cons c r =>
      simp at hnext
      have h2 := (List.nodup_cons.1 hnd).2
      rw [List.nodup_append] at h2
      exact (List.nodup_cons.1 h2.2.1).1 (by simp [hnext])
  refine ⟨rfl, rfl, hnext, hne, erase_selfRef _ s, ?_, ?_⟩
  · intro c r hl2
    subst hl2
    have hpc : (s p).next = c := by simpa using hnext.symm
    have hw' := wf_erase_member hw c (by simp)
    have hc1 : c ∉ l1 := by
      have h2 := (List.nodup_cons.1 hnd).2
      rw [List.nodup_append] at h2
      exact fun e => h2.2.2 e (by simp)
    have hcp' : c ≠ p := hpc ▸ hne
    have her : (l1 ++ p :: c :: r).erase c = l1 ++ p :: r := by
      rw [List.erase_append_right _ hc1, List.erase_cons_tail (by simpa using hcp'.symm)]
      simp
    rw [her] at hw'
    have hst : (list.erase ⟨p⟩ s).1 = listnode.erase c s := by
      rw [← hpc]; rfl
    refine ⟨by rw [← hpc]; rfl, hst ▸ hw', ?_⟩
    intro fuel hf
    refine ⟨wf_size hw fuel hf, ?_⟩
    have := wf_size (hst ▸ hw') fuel (by simp at hf ⊢; omega)
    rw [this]
    simp
  · intro hl2
    subst hl2
    have hph' : (s p).next = l.head := by simpa using hnext.symm
    have hst : (list.erase ⟨p⟩ s).1 = l.clear s := by
      show listnode.erase (s p).next s = listnode.erase l.head s
      rw [hph']
    have hself : SelfRef (l.clear s) l.head := erase_selfRef l.head s
    refine ⟨by show (⟨(s p).next⟩ : iterator) = ⟨l.head⟩; rw [hph'], hst, ?_, ?_, ?_⟩
    · rw [hst]; exact (selfRef_empty hself).2.1
    · rw [hst]; exact (selfRef_empty hself).2.2
    · intro a t hat
      have hw2 : l.WellFormed s (a :: t) := by rw [← hat]; exact hw
      have hm := erase_head_members hw2
      have hlp : lastFrom a t = p := by
        have h1 := lastFrom_eq_getLast? a t
        rw [← hat] at h1
        simpa using h1.symm
      have hsr := erase_head_selfRef hw2
      rw [hst]
      refine ⟨hm.1, hlp, ?_, ?_, hsr.2⟩
      · rw [← hlp]
        exact hm.2
      · intro ht
        have h1 := hsr.1 ht
        subst ht
        simp only [lastFrom] at hlp
        rw [← hlp]
        exact h1

/-- Witness for C20 (amended): `erase(iterator(one))` on `listA = [1, 2]`
keeps element 1 and removes element 2. -/
theorem erase_unlinks_what_follows_witness :
    listA.WellFormed scenario12 ([] ++ nodeA 1 :: [nodeA 2]) ∧
    listA.WellFormed (list.erase ⟨nodeA 1⟩ scenario12).1 ([] ++ nodeA 1 :: []) ∧
    (list.erase ⟨nodeA 1⟩ scenario12).2 = ⟨nodeA 2⟩ :=
  ⟨by decide,
    ((erase_unlinks_what_follows listA scenario12 [] [nodeA 2] (nodeA 1) (by decide)).2.2.2.2.2.1
      (nodeA 2) [] rfl).2.1,
    ((erase_unlinks_what_follows listA scenario12 [] [nodeA 2] (nodeA 1) (by decide)).2.2.2.2.2.1
      (nodeA 2) [] rfl).1⟩

/-- C13: in a ring-consistent state, `listnode::erase()` on any link field,
`pop_front()`, `pop_back()` and `clear()` on any list, and the splice
`insert(P, b, e)` of a run `[b, e)` (empty, or the nodes `b :: t` reached from
`b` along `next` before `e`) with `P` outside the run all lead to a
ring-consistent state. -/
theorem removing_and_splicing_keep_consistency (s s' : Heap) (hcs : Consistent s)
    (hop : (∃ n : Ptr, s' = listnode.erase n s) ∨
      (∃ l : list, s' = l.pop_front s ∨ s' = l.pop_back s ∨ s' = l.clear s) ∨
      (∃ (pos e : iterator) (b : Ptr) (t : List Ptr), List.Chain (Linked s) b t ∧
        (s (lastFrom b t)).next = e.node ∧ e.node ∉ b :: t ∧ pos.node ∉ b :: t ∧
        s' = (list.insert_range pos ⟨b⟩ e s).1) ∨
      (∃ pos b : iterator, s' = (list.insert_range pos b b s).1)) :
    Consistent s' := by
  rcases hop with ⟨n, h⟩ | ⟨l, h | h | h⟩ | ⟨pos, e, b, t, hch, hle, he, hpos, h⟩ | ⟨pos, b, h⟩
  · rw [h]; exact erase_consistent hcs n
  · rw [h]; exact erase_consistent hcs _
  · rw [h]; exact erase_consistent hcs _
  · rw [h]; exact erase_consistent hcs _
  · have hst : list.insert_range pos ⟨b⟩ e s =
        ((s.bridge (s b).prev e.node).link_before pos.node b (lastFrom b t), ⟨b⟩) :=
      run_insert_range_state hcs hle he pos
    rw [h, hst]
    exact link_consistent (run_floating hcs hch hle he) hpos
  · rw [h]
    simpa [list.insert_range] using hcs

/-- Witness for C13: splicing all of `listA = [1, 2]` to the end of
`listA2`. -/
theorem removing_and_splicing_keep_consistency_witness :
    Consistent scenario12 ∧
    Consistent (list.insert_range listA2.end_ ⟨nodeA 1⟩ listA.end_ scenario12).1 :=
  ⟨consistent_scenario12,
    removing_and_splicing_keep_consistency scenario12 _ consistent_scenario12
      (Or.inr (Or.inr (Or.inl ⟨listA2.end_, listA.end_, nodeA 1, [nodeA 2],
        List.Chain.cons (by decide) List.Chain.nil, by decide, by decide, by decide, rfl⟩)))⟩

/-- C18: let `b :: t` be the run `[b, e)`: a path along `next` mirrored by
`prev`, its last element `lastFrom b t` directly followed by `e`, `e` not in
it, and `b` the successor of its own predecessor; let `pos` be outside the
run and the successor of its own predecessor.  Then `insert(pos, b, e)` is
six field writes whatever the length of the run; the only `next` fields that
can change are those of `b`'s former predecessor, of the last element and of
`pos`'s former predecessor, the only `prev` fields those of `e`, `b` and
`pos`; every node strictly inside the run keeps both fields, and with two or
more elements `b` keeps its `next` and the last element its `prev`. -/
theorem splice_writes_only_boundary (s : Heap) (pos e : iterator) (b : Ptr) (t : List Ptr)
    (hch : List.Chain (Linked s) b t) (hle : Linked s (lastFrom b t) e.node)
    (hpb : (s (s b).prev).next = b) (hpp : (s (s pos.node).prev).next = pos.node)
    (he : e.node ∉ b :: t) (hpos : pos.node ∉ b :: t) :
    (list.insert_range pos ⟨b⟩ e s).1 =
      (((((s.set_next (s b).prev e.node).set_prev e.node (s b).prev).set_prev b
        (if pos.node = e.node then (s b).prev else (s pos.node).prev)).set_next
        (lastFrom b t) pos.node).set_next
        (if pos.node = e.node then (s b).prev else (s pos.node).prev) b).set_prev
        pos.node (lastFrom b t) ∧
    (∀ q, ((list.insert_range pos ⟨b⟩ e s).1 q).next ≠ (s q).next →
      q = (s b).prev ∨ q = lastFrom b t ∨ q = (s pos.node).prev) ∧
    (∀ q, ((list.insert_range pos ⟨b⟩ e s).1 q).prev ≠ (s q).prev →
      q = e.node ∨ q = b ∨ q = pos.node) ∧
    (∀ x ∈ b :: t, x ≠ b → x ≠ lastFrom b t → (list.insert_range pos ⟨b⟩ e s).1 x = s x) ∧
    (t ≠ [] →
      ((list.insert_range pos ⟨b⟩ e s).1 b).next = (s b).next ∧
      ((list.insert_range pos ⟨b⟩ e s).1 (lastFrom b t)).prev = (s (lastFrom b t)).prev) := by
  have hst : list.insert_range pos ⟨b⟩ e s =
      ((s.bridge (s b).prev e.node).link_before pos.node b (lastFrom b t), ⟨b⟩) :=
    insert_range_state_at hle he pos
  have hpb' : pos.node ≠ b := link_pos_ne hpos
  have hnd := run_nodup hch hle.1 he
  have hA : (s b).prev ∉ b :: t :=
    fun hin => run_next_ne_first hnd hch hle.1 he _ hin hpb
  have hQout : ((s.bridge (s b).prev e.node) pos.node).prev ∉ b :: t := by
    rw [bridge_prev]
    split
    · exact hA
    · rename_i hpe
      intro hin
      by_cases hl : (s pos.node).prev = lastFrom b t
      · apply hpe
        rw [← hpp, hl]
        exact hle.1
      · obtain ⟨y, hy, hxy⟩ := chain_succ b t hch _ hin hl
        apply hpos
        rw [← hpp, hxy.1]
        exact List.mem_cons_of_mem _ hy
  obtain ⟨Q, hQdef⟩ : ∃ Q, ((s.bridge (s b).prev e.node) pos.node).prev = Q := ⟨_, rfl⟩
  have hQ : (if pos.node = e.node then (s b).prev else (s pos.node).prev) = Q := by
    rw [← hQdef, bridge_prev]
  have hQn : Q ∉ b :: t := hQdef ▸ hQout
  have hnx : ∀ q, ((list.insert_range pos ⟨b⟩ e s).1 q).next =
      if q = Q then b else if q = lastFrom b t then pos.node
      else if q = (s b).prev then e.node else (s q).next := by
    intro q
    rw [hst]
    show ((Heap.link_before _ pos.node b (lastFrom b t)) q).next = _
    rw [link_before_next _ _ _ _ _ hpb', hQdef, bridge_next]
  have hpv : ∀ q, ((list.insert_range pos ⟨b⟩ e s).1 q).prev =
      if q = pos.node then lastFrom b t else if q = b then Q
      else if q = e.node then (s b).prev else (s q).prev := by
    intro q
    rw [hst]
    show ((Heap.link_before _ pos.node b (lastFrom b t)) q).prev = _
    rw [link_before_prev, hQdef, bridge_prev]
  refine ⟨?_, ?_, ?_, ?_, ?_⟩
  · apply heap_ext
    intro q
    rw [hpv q, hnx q, hQ]
    simp only [set_prev_prev, set_prev_next, set_next_prev, set_next_next, and_self]
  · intro q hq
    rw [hnx q] at hq
    by_cases h1 : q = (s b).prev
    · exact Or.inl h1
    · by_cases h2 : q = lastFrom b t
      · exact Or.inr (Or.inl h2)
      · right; right
        by_contra h3
        apply hq
        have h4 : q ≠ Q := by
          rw [← hQ]
          split
          · exact h1
          · exact h3
        simp [h1, h2, h4]
  · intro q hq
    rw [hpv q] at hq
    by_contra h
    push_neg at h
    apply hq
    simp [h.1, h.2.1, h.2.2]
  · intro x hx hxb hxl
    have h1 : x ≠ Q := fun e1 => hQn (e1 ▸ hx)
    have h2 : x ≠ (s b).prev := fun e1 => hA (e1 ▸ hx)
    have h3 : x ≠ pos.node := fun e1 => hpos (e1 ▸ hx)
    have h4 : x ≠ e.node := fun e1 => he (e1 ▸ hx)
    apply listnode_ext
    · rw [hpv x]; simp [h3, hxb, h4]
    · rw [hnx x]; simp [h1, hxl, h2]
  · intro ht
    have hbl : b ≠ lastFrom b t := (lastFrom_ne_head b t hnd ht).symm
    have hlm : lastFrom b t ∈ b :: t := lastFrom_mem b t
    have h1 : b ≠ Q := fun e1 => hQn (by rw [← e1]; simp)
    have h2 : b ≠ (s b).prev := fun e1 => hA (by rw [← e1]; simp)
    have h3 : lastFrom b t ≠ pos.node := fun e1 => hpos (e1 ▸ hlm)
    have h4 : lastFrom b t ≠ e.node := fun e1 => he (e1 ▸ hlm)
    constructor
    · rw [hnx b]; simp [h1, hbl, h2]
    · rw [hpv _]; simp [h3, hbl.symm, h4]

/-- Witness for C18: in the state after the test program's inner block (not
ring consistent at the destroyed nodes), splicing the run `[1, 2]` of `listB`
to the end of `listB2` leaves the `next` of element 1 and the `prev` of
element 2 as they were. -/
theorem splice_writes_only_boundary_witness :
    ¬ ConsistentAt scenarioScope (nodeA 4) ∧ [nodeB 2] ≠ [] ∧
    ((list.insert_range listB2.end_ ⟨nodeB 1⟩ listB.end_ scenarioScope).1 (nodeB 1)).next
      = (scenarioScope (nodeB 1)).next ∧
    ((list.insert_range listB2.end_ ⟨nodeB 1⟩ listB.end_ scenarioScope).1 (nodeB 2)).prev
      = (scenarioScope (nodeB 2)).prev :=
  ⟨by decide, by decide,
    ((splice_writes_only_boundary scenarioScope listB2.end_ listB.end_ (nodeB 1) [nodeB 2]
      (List.Chain.cons (by decide) List.Chain.nil) (by decide) (by decide) (by decide)
      (by decide) (by decide)).2.2.2.2 (by decide)).1,
    ((splice_writes_only_boundary scenarioScope listB2.end_ listB.end_ (nodeB 1) [nodeB 2]
      (List.Chain.cons (by decide) List.Chain.nil) (by decide) (by decide) (by decide)
      (by decide) (by decide)).2.2.2.2 (by decide)).2⟩

/-- C17: when the link fields that exist form a finite set `live` that is
closed under `next` and ring consistent, and the sentinel is one of them, the
traversal of `size()` comes back to the sentinel: there is a sequence `xs` of
pairwise different live nodes, none the sentinel, that `next` runs through
from the sentinel back to the sentinel, and with more fuel than its length
`size()` returns that length and the iteration visits exactly `xs`. -/
theorem size_terminates_on_finite_ring (l : list) (s : Heap) (live : Finset Ptr)
    (hcs : ∀ p ∈ live, ConsistentAt s p) (hcl : ∀ p ∈ live, (s p).next ∈ live)
    (hh : l.head ∈ live) :
    ∃ xs : List Ptr, (l.head :: xs).Nodup ∧
      List.Chain (Linked s) l.head (xs ++ [l.head]) ∧ (∀ x ∈ xs, x ∈ live) ∧
      xs.length < live.card ∧
      ∀ fuel, xs.length < fuel →
        l.size s fuel = some xs.length ∧ l.elements s fuel = some xs := by
  have hper := next_periodic live hcs hcl l.head hh
  have hk := Function.minimalPeriod_pos_of_mem_periodicPts hper
  have hfk : (fun p => (s p).next)^[Function.minimalPeriod (fun p => (s p).next) l.head] l.head
      = l.head := Function.iterate_minimalPeriod
  have hinj := Function.iterate_injOn_Iio_minimalPeriod
    (f := fun p => (s p).next) (x := l.head)
  obtain ⟨m, hm⟩ : ∃ m, Function.minimalPeriod (fun p => (s p).next) l.head = m + 1 :=
    ⟨_, (Nat.succ_pred_eq_of_pos hk).symm⟩
  rw [hm] at hfk hinj
  have hnd : (l.head :: visited s (s l.head).next m).Nodup := by
    have := visited_nodup s l.head (m + 1)
      (fun i j hi hj hij => hinj (Set.mem_Iio.2 hi) (Set.mem_Iio.2 hj) hij)
    simpa [visited] using this
  have hch : List.Chain (Linked s) l.head (visited s (s l.head).next m ++ [l.head]) := by
    have := visited_chain live hcs hcl l.head hh m
    rw [hfk] at this
    exact this
  have hlive : ∀ x ∈ visited s (s l.head).next m, x ∈ live := by
    intro x hx
    obtain ⟨i, _, hxi⟩ := mem_visited s _ m x hx
    rw [← hxi]
    exact iterate_next_mem live hcl _ (hcl _ hh) i
  have hlen : (visited s (s l.head).next m).length < live.card := by
    have h1 : (l.head :: visited s (s l.head).next m).toFinset ⊆ live := by
      intro x hx
      rw [List.mem_toFinset] at hx
      rcases List.mem_cons.1 hx with e | e
      · exact e ▸ hh
      · exact hlive x e
    have h2 := Finset.card_le_card h1
    rw [List.toFinset_card_of_nodup hnd] at h2
    simp at h2
    omega
  refine ⟨visited s (s l.head).next m, hnd, hch, hlive, hlen, ?_⟩
  intro fuel hf
  have hhn : l.head ∉ visited s (s l.head).next m := (List.nodup_cons.1 hnd).1
  constructor
  · have := size_loop_of_chain s l.head _ l.head fuel 0 hch hhn hf
    simpa [list.size] using this
  · exact walk_of_chain s l.head _ l.head fuel hch hhn hf

/-- Witness for C17: the three link fields of `listA = [1, 2]`. -/
theorem size_terminates_on_finite_ring_witness :
    (∀ p ∈ ({listA.head, nodeA 1, nodeA 2} : Finset Ptr), ConsistentAt scenario12 p) ∧
    (∀ p ∈ ({listA.head, nodeA 1, nodeA 2} : Finset Ptr),
      (scenario12 p).next ∈ ({listA.head, nodeA 1, nodeA 2} : Finset Ptr)) ∧
    ∃ xs : List Ptr, (listA.head :: xs).Nodup ∧
      List.Chain (Linked scenario12) listA.head (xs ++ [listA.head]) ∧
      (∀ x ∈ xs, x ∈ ({listA.head, nodeA 1, nodeA 2} : Finset Ptr)) ∧
      xs.length < ({listA.head, nodeA 1, nodeA 2} : Finset Ptr).card ∧
      ∀ fuel, xs.length < fuel →
        listA.size scenario12 fuel = some xs.length ∧ listA.elements scenario12 fuel = some xs :=
  ⟨by decide, by decide,
    size_terminates_on_finite_ring listA scenario12 {listA.head, nodeA 1, nodeA 2}
      (by decide) (by decide) (by decide)⟩

end intrusive
